import Mathlib

set_option maxRecDepth 10000
set_option maxHeartbeats 1000000

/-!
A verification development for the encrypted-bigquery-client core: the
cryptographic primitive layer (PRF/PRG, AES-CBC based ciphers, Paillier
homomorphic encryption) and the query rewriter/evaluator, shallowly embedded
from the Python sources (`common_crypto.py`, `paillier.py`, `ebq_crypto.py`,
`common_util.py`, `query_interpreter.py`, `query_lib.py`).

Byte strings (Python 2 `str`) are modelled as `List Nat` (one `Nat` per byte);
arbitrary-precision integers as `Nat`/`Int`; functions that can raise Python
exceptions return `Except String _`.  External library primitives (the HMAC
digest, the AES block permutation, base64 and UTF-8 codecs) are parameters of
the embedded functions, constrained only by their library contracts.
-/

/-- Bytes of an ASCII string, one `Nat` per character. -/
def strBytes (s : String) : List Nat := s.toList.map Char.toNat

instance {ε α : Type} [DecidableEq ε] [DecidableEq α] :
    DecidableEq (Except ε α)
  | .error a, .error b =>
    if h : a = b then isTrue (h ▸ rfl)
    else isFalse (fun hc => h (Except.error.inj hc))
  | .error _, .ok _ => isFalse (fun hc => Except.noConfusion hc)
  | .ok _, .error _ => isFalse (fun hc => Except.noConfusion hc)
  | .ok a, .ok b =>
    if h : a = b then isTrue (h ▸ rfl)
    else isFalse (fun hc => h (Except.ok.inj hc))

namespace ccrypto

/-- `common_crypto.IntToFixedSizeString`: Python `'%8s' % value` right-justifies
the decimal digits of `value` in an 8-character field, i.e. pads on the LEFT
with spaces; it raises unless `0 <= value < 100000000`. -/
def format8 (value : Nat) : List Nat :=
  List.replicate (8 - (toString value).length) 32 ++ strBytes (toString value)

/-- `common_crypto.IntToFixedSizeString` with its range check. -/
def IntToFixedSizeString (value : Nat) : Except String (List Nat) :=
  if value < 100000000 then .ok (format8 value)
  else .error "value needs to be a positive integer less than 100000000"

/-- One block of `common_crypto.PRF`:
`hmac.new(key, IntToFixedSizeString(count) + input_str, hasher).digest()`,
with the digest function `hmac` abstract (HMAC is an external library). -/
def prfBlock (hmac : List Nat → List Nat → List Nat) (key input : List Nat)
    (count : Nat) : Except String (List Nat) := do
  let pre ← IntToFixedSizeString count
  pure (hmac key (pre ++ input))

/-- `common_crypto.PRF(key, input_str, output_len, hashfunc)`: concatenates
16-byte prefixes of HMAC digests of `format8(count) ++ input_str` for
`count = 0, 1, ...`, plus a partial block when `output_len` is not a multiple
of 16. -/
def PRF (hmac : List Nat → List Nat → List Nat) (key input : List Nat)
    (output_len : Nat) : Except String (List Nat) :=
  if key.length < 1 then .error "Key to PRF has to be a byte or larger."
  else if output_len < 1 then
    .error "Prf output length has to be a byte or larger."
  else do
    let blocks ← (List.range (output_len / 16)).mapM
      (fun c => (prfBlock hmac key input c).map (·.take 16))
    let base := blocks.flatten
    if output_len % 16 ≠ 0 then
      let last ← prfBlock hmac key input (output_len / 16)
      pure (base ++ last.take (output_len % 16))
    else
      pure base

/-- `common_crypto.PRG`: its observable state is the seed and the running byte
count. -/
structure PRG where
  seed : List Nat
  count : Nat

/-- `common_crypto.PRG.GetNextBytes(n)`: pages `PRF(seed, str(k))` blocks for
`k` from `count / 16` to `(count + n) / 16` and slices
`buf[count % 16 : -(16 - (count + n) % 16)]`, advancing the count by `n`. -/
def PRG.GetNextBytes (hmac : List Nat → List Nat → List Nat) (prg : PRG)
    (n : Nat) : Except String (List Nat × PRG) :=
  let first_block := prg.count / 16
  let last_block := (prg.count + n) / 16
  ((List.range (last_block + 1 - first_block)).mapM
    (fun i => PRF hmac prg.seed (strBytes (toString (first_block + i))) 16)).map
    (fun bufs =>
      let buf := bufs.flatten
      let endIdx := buf.length - (16 - (prg.count + n) % 16)
      (((buf.take endIdx).drop (prg.count % 16)),
       ⟨prg.seed, prg.count + n⟩))

/-- Byte `j` of the unbounded pseudorandom stream of `PRG(seed)`:
byte `j % 16` of the 16-byte block `PRF(seed, str(j / 16))`. -/
def streamByte (hmac : List Nat → List Nat → List Nat) (seed : List Nat)
    (j : Nat) : Nat :=
  ((hmac seed (format8 0 ++ strBytes (toString (j / 16)))).take 16).getD
    (j % 16) 0

/-- The PRF output shape used by the specification: the concatenation of the
first 16 bytes of `hmac(key, fmt(i) ++ input)` for `i = 0, 1, 2, ...`,
truncated to exactly `L` bytes (`⌈L/16⌉` blocks suffice).  The counter
formatting `fmt` is a parameter so that the code's left-padding `format8` and
the claim's right-padded variant can be compared. -/
def prfSpec (hmac : List Nat → List Nat → List Nat) (key input : List Nat)
    (L : Nat) (fmt : Nat → List Nat) : List Nat :=
  (((List.range ((L + 15) / 16)).map
    (fun i => (hmac key (fmt i ++ input)).take 16)).flatten).take L

/-- The claim's (incorrect) reading of `IntToFixedSizeString`: decimal digits
of `value` padded on the RIGHT with spaces to 8 characters. -/
def format8RightPadded (value : Nat) : List Nat :=
  strBytes (toString value) ++ List.replicate (8 - (toString value).length) 32

end ccrypto

namespace paillier

/-- Constants from the top of `paillier.py` (`long(k*'1', 2)` is `2^k - 1`). -/
def PACKING_LIMIT : Nat := 7

def PACKING_BIT_SIZE : Nat := 96 + 32

def N_LENGTH : Nat := 1024

def MAX_INT64 : Int := 2 ^ 63 - 1

def MIN_INT64 : Int := -(2 ^ 63)

def ONES_33 : Nat := 2 ^ 33 - 1

def ONES_63 : Nat := 2 ^ 63 - 1

def ONES_64 : Nat := 2 ^ 64 - 1

def ONES_96 : Nat := 2 ^ 96 - 1

def ONES_832 : Nat := 2 ^ 832 - 1

def FLOAT_MSB : Nat := N_LENGTH - 1

def MAX_ADDS : Nat := 32

def FLOAT_NAN_LSB : Nat := FLOAT_MSB - MAX_ADDS

def FLOAT_PLUSINF_LSB : Nat := FLOAT_NAN_LSB - MAX_ADDS

def FLOAT_MINUSINF_LSB : Nat := FLOAT_PLUSINF_LSB - MAX_ADDS

def FLOAT_CARRYOVER_LSB : Nat := FLOAT_MINUSINF_LSB - MAX_ADDS

def FLOAT_SIGN_HIGH_LSB : Nat := FLOAT_CARRYOVER_LSB - MAX_ADDS

def FLOAT_SIGN_LOW_LSB : Nat := FLOAT_SIGN_HIGH_LSB - MAX_ADDS

def EXPLICIT_MANTISSA_BITS : Nat := 52

def MANTISSA_BITS : Nat := 53

def EXPONENT_BITS : Nat := 11

def EXPONENT_BIAS : Nat := 2 ^ (EXPONENT_BITS - 1) - 1

def FLOAT_MANTISSA_LSB : Nat := FLOAT_SIGN_LOW_LSB - MANTISSA_BITS

def FLOAT_MANTISSA_ZERO : Nat := FLOAT_MANTISSA_LSB / 2

def ONES_CARRYOVER_LSB : Nat := 2 ^ FLOAT_CARRYOVER_LSB - 1

def ONES_FLOAT_SIGN_LOW_LSB : Nat := 2 ^ FLOAT_SIGN_LOW_LSB - 1

/-- `paillier.ModExp(a, b, c)`: both the openssl path and the fallback compute
`pow(a, b, c)`, i.e. `a ^ b mod c`. -/
def ModExp (a b c : Nat) : Nat := a ^ b % c

/-- The key material of a `paillier.Paillier` object: `n`, `nsquare`, `g` and
the private `lambda` (`lam` here) and `mu`. -/
structure Paillier where
  n : Nat
  nsquare : Nat
  g : Nat
  lam : Nat
  mu : Nat

/-- `Paillier.__init__` invariants for a key honestly generated from two
distinct primes (the seeded path derives `p`, `q` prime, `n = p*q`,
`g = n + 1`, `lambda = (p-1)(q-1)` and `mu = lambda^-1 mod n`). -/
structure Paillier.ValidKey (pk : Paillier) (p q : Nat) : Prop where
  pprime : p.Prime
  qprime : q.Prime
  pq_ne : p ≠ q
  hn : pk.n = p * q
  hns : pk.nsquare = pk.n * pk.n
  hg : pk.g = pk.n + 1
  hlam : pk.lam = (p - 1) * (q - 1)
  hmu : pk.mu * pk.lam % pk.n = 1

/-- `Paillier.Encrypt(plaintext, r_value)` with the random `r_value` passed
explicitly: `g^m * r^n mod n^2`. -/
def Paillier.Encrypt (pk : Paillier) (plaintext r : Nat) : Nat :=
  ModExp pk.g plaintext pk.nsquare * ModExp r pk.n pk.nsquare % pk.nsquare

/-- `Paillier.Decrypt(ciphertext)`: `L(c^lambda mod n^2) * mu mod n` with
`L(u) = (u - 1) / n` (the Python `//`; for the valid ciphertexts considered
here `u >= 1`, so Nat subtraction agrees). -/
def Paillier.Decrypt (pk : Paillier) (ciphertext : Nat) : Nat :=
  (ModExp ciphertext pk.lam pk.nsquare - 1) / pk.n * pk.mu % pk.n

/-- `Paillier.Add(c1, c2) = c1 * c2 mod n^2`. -/
def Paillier.Add (pk : Paillier) (c1 c2 : Nat) : Nat :=
  c1 * c2 % pk.nsquare

/-- `Paillier._Extend64bitTo96bitTwosComplement`: non-negative values are kept,
negative values become `(abs(num) XOR (2^96 - 1)) + 1`. -/
def Extend64bitTo96bitTwosComplement (num : Int) : Nat :=
  if 0 ≤ num then num.toNat
  else (num.natAbs ^^^ ONES_96) + 1

/-- `Paillier._Unwrap96bitTo64bit`: checks the 33 sign bits 63..95 and decodes
the 96-bit twos-complement value, raising OverflowError otherwise. -/
def Unwrap96bitTo64bit (plaintext : Nat) : Except String Int :=
  let valuebits1to63 := plaintext &&& ONES_63
  let signbits64to96 := (plaintext &&& 0xffffffff8000000000000000) >>> 63
  if ¬(signbits64to96 = 0 ∨ signbits64to96 = ONES_33) then
    .error "Overflow detected in decrypted int"
  else if signbits64to96 = 0 then
    .ok (valuebits1to63 : Int)
  else
    .ok (-((((plaintext ^^^ ONES_96) + 1) &&& ONES_64 : Nat) : Int))

/-- `Paillier.EncryptInt64`: range-check, sign-extend to 96 bits, encrypt. -/
def Paillier.EncryptInt64 (pk : Paillier) (plaintext : Int) (r : Nat) :
    Except String Nat :=
  if plaintext < MIN_INT64 ∨ MAX_INT64 < plaintext then
    .error "Int64 values need to be between MIN_INT64 and MAX_INT64"
  else
    .ok (pk.Encrypt (Extend64bitTo96bitTwosComplement plaintext) r)

/-- `Paillier.DecryptInt64`. -/
def Paillier.DecryptInt64 (pk : Paillier) (ciphertext : Nat) :
    Except String Int :=
  Unwrap96bitTo64bit (pk.Decrypt ciphertext)

/-- The packing loop of `Paillier.EncryptMultipleInt64s`: shift the
accumulated payload by 128 bits (except before the first entry) and add the
96-bit extension of each entry, range-checking every entry. -/
def packInt64sGo (acc : Nat) (counter : Nat) : List Int → Except String Nat
  | [] => .ok acc
  | e :: t =>
    if e < MIN_INT64 ∨ MAX_INT64 < e then
      .error "Int64 values need to be between MIN_INT64 and MAX_INT64"
    else
      packInt64sGo ((if 0 < counter then acc <<< PACKING_BIT_SIZE else acc)
        + Extend64bitTo96bitTwosComplement e) (counter + 1) t

/-- `Paillier.EncryptMultipleInt64s`: at most `PACKING_LIMIT` entries are
packed into one payload and encrypted. -/
def Paillier.EncryptMultipleInt64s (pk : Paillier) (numberlist : List Int)
    (r : Nat) : Except String Nat :=
  if PACKING_LIMIT < numberlist.length then
    .error "The number of entries in the input list cannot be more than 7"
  else
    (packInt64sGo 0 0 numberlist).map (fun pt => pk.Encrypt pt r)

/-- The unpacking loop of `Paillier.DecryptMultipleInt64s`: 7 iterations, each
unwraps the low 96 bits and prepends the value. -/
def unpackInt64sGo : Nat → Nat → List Int → Except String (List Int)
  | _, 0, acc => .ok acc
  | pt, k + 1, acc => do
    let v ← Unwrap96bitTo64bit (pt &&& ONES_96)
    unpackInt64sGo (pt >>> PACKING_BIT_SIZE) k (v :: acc)

/-- `Paillier.DecryptMultipleInt64s`. -/
def Paillier.DecryptMultipleInt64s (pk : Paillier) (ciphertext : Nat) :
    Except String (List Int) :=
  unpackInt64sGo (pk.Decrypt ciphertext) PACKING_LIMIT []

/-- Closed form of the packing loop of `EncryptMultipleInt64s`: fold the
entries MSB-first, shifting the accumulator by `PACKING_BIT_SIZE = 128` bits
per entry. -/
def packValue (l : List Int) : Nat :=
  l.foldl (fun acc e => acc * 2 ^ 128 + Extend64bitTo96bitTwosComplement e) 0

/-- The homomorphic sum of a batch of ciphertexts: repeated `Paillier.Add`.
The empty case is never used; a non-empty list folds `Add` from its head. -/
def Paillier.SumCiphers (pk : Paillier) : List Nat → Nat
  | [] => 1
  | c :: rest => rest.foldl pk.Add c

/-- CPython bit patterns of `float('nan')`, `float('inf')`, `float('-inf')`. -/
def NAN_BITS : Nat := 0x7ff8000000000000

def INF_BITS : Nat := 0x7ff0000000000000

def NINF_BITS : Nat := 0xfff0000000000000

/-- A double is represented throughout by its IEEE-754 binary64 bit pattern
(`struct.unpack('Q', struct.pack('d', x))[0]`).  The biased exponent field. -/
def expField (b : Nat) : Nat := (b >>> 52) &&& 0x7ff

/-- The mantissa with the implicit leading bit, as computed by
`EncryptFloat`: `(input & 0xfffffffffffff) | 0x10000000000000`. -/
def mantField (b : Nat) : Nat := (b &&& 0xfffffffffffff) ||| 0x10000000000000

/-- The sign bit, `input_as_long >> 63`. -/
def signField (b : Nat) : Nat := b >>> 63

/-- `math.isnan` on the bit pattern. -/
def isNanBits (b : Nat) : Prop :=
  expField b = 0x7ff ∧ b &&& 0xfffffffffffff ≠ 0

/-- `paillier.IsInfPlus` on the bit pattern. -/
def isInfPlusBits (b : Nat) : Prop :=
  expField b = 0x7ff ∧ b &&& 0xfffffffffffff = 0 ∧ signField b = 0

/-- `paillier.IsInfMinus` on the bit pattern. -/
def isInfMinusBits (b : Nat) : Prop :=
  expField b = 0x7ff ∧ b &&& 0xfffffffffffff = 0 ∧ signField b = 1

instance (b : Nat) : Decidable (isNanBits b) := by
  unfold isNanBits
  infer_instance

instance (b : Nat) : Decidable (isInfPlusBits b) := by
  unfold isInfPlusBits
  infer_instance

instance (b : Nat) : Decidable (isInfMinusBits b) := by
  unfold isInfMinusBits
  infer_instance

/-- The plaintext payload computed by `Paillier.EncryptFloat` from the bit
pattern `b` of the input float (the unbiased exponent is
`expField b - EXPONENT_BIAS`, an integer). -/
def floatEncode (b : Nat) : Except String Nat :=
  let mantissa := mantField b
  let exponent : Int := (expField b : Int) - EXPONENT_BIAS
  let sign := signField b
  if isNanBits b then .ok (1 <<< FLOAT_NAN_LSB)
  else if isInfPlusBits b then .ok (1 <<< FLOAT_PLUSINF_LSB)
  else if isInfMinusBits b then .ok (1 <<< FLOAT_MINUSINF_LSB)
  else if exponent = 0 ∧ mantissa = 0 then .ok 0
  else if (FLOAT_MANTISSA_ZERO : Int) < exponent then
    .error "Floats with exponents larger than 389 are currently not suppported."
  else if exponent < -(FLOAT_MANTISSA_ZERO : Int) - EXPLICIT_MANTISSA_BITS then
    .ok 0
  else
    let pt := (mantissa <<< FLOAT_MANTISSA_LSB)
      >>> ((FLOAT_MANTISSA_ZERO : Int) - exponent).toNat
    .ok (if sign = 1 then (pt ^^^ ONES_CARRYOVER_LSB) + 1 else pt)

/-- `Paillier.EncryptFloat` on the bit pattern of the plaintext. -/
def Paillier.EncryptFloat (pk : Paillier) (b : Nat) (r : Nat) :
    Except String Nat :=
  (floatEncode b).map (fun pt => pk.Encrypt pt r)

/-- The reconstruction performed by `Paillier.DecryptFloat` on the decrypted
plaintext.  The successive `plaintext >>= 32` shifts of the Python code are
written with absolute bit positions (`x >> a >> b = x >> (a + b)`), and
`Nat.size` is Python `len(bin(x)) - 2` for the positive values reached here.
Returns the bit pattern of the resulting float. -/
def floatDecode (originalPt : Nat) : Except String Nat :=
  let mantissa_and_exponent := originalPt &&& ONES_FLOAT_SIGN_LOW_LSB
  let sign_low32 := (originalPt >>> 831) &&& 0xffffffff
  let sign_high32 := (originalPt >>> 863) &&& 0xffffffff
  let minus_inf32 := (originalPt >>> 927) &&& 0xffffffff
  let plus_inf32 := (originalPt >>> 959) &&& 0xffffffff
  let nan_32 := (originalPt >>> 991) &&& 0xffffffff
  if 0 < nan_32 then .ok NAN_BITS
  else if 0 < plus_inf32 ∧ 0 < minus_inf32 then .ok NAN_BITS
  else if 0 < plus_inf32 then .ok INF_BITS
  else if 0 < minus_inf32 then .ok NINF_BITS
  else if sign_high32 = 0 ∧ 0 < sign_low32 then .ok INF_BITS
  else if sign_high32 = 0xffffffff ∧ sign_low32 < 0xffffffff then .ok NINF_BITS
  else if sign_high32 = 0 ∧ sign_low32 = 0 then
    if mantissa_and_exponent = 0 then .ok 0
    else
      let size := Nat.size mantissa_and_exponent
      let new_mantissa :=
        if MANTISSA_BITS ≤ size then
          (mantissa_and_exponent >>> (size - MANTISSA_BITS)) &&& 0xfffffffffffff
        else
          (mantissa_and_exponent <<< (MANTISSA_BITS - size)) &&& 0xfffffffffffff
      let new_exponent : Int := ((size : Int) - MANTISSA_BITS)
        - FLOAT_MANTISSA_ZERO + EXPONENT_BIAS
      .ok ((new_exponent.toNat <<< EXPLICIT_MANTISSA_BITS) ||| new_mantissa)
  else if sign_high32 = 0xffffffff ∧ sign_low32 = 0xffffffff then
    let num := originalPt &&& ONES_CARRYOVER_LSB
    let positive_895bit_value := (num ^^^ ONES_CARRYOVER_LSB) + 1
    let positive_832bit_value := positive_895bit_value &&& ONES_832
    if positive_832bit_value >>> FLOAT_SIGN_LOW_LSB ≠ 0 then .ok NINF_BITS
    else
      let size := Nat.size positive_832bit_value
      let new_mantissa :=
        if MANTISSA_BITS ≤ size then
          (positive_832bit_value >>> (size - MANTISSA_BITS)) &&& 0xfffffffffffff
        else
          (positive_832bit_value <<< (MANTISSA_BITS - size)) &&& 0xfffffffffffff
      let new_exponent : Int := ((size : Int) - MANTISSA_BITS)
        - FLOAT_MANTISSA_ZERO + EXPONENT_BIAS
      .ok ((new_exponent.toNat <<< EXPLICIT_MANTISSA_BITS) ||| new_mantissa
        ||| (1 <<< 63))
  else .error "Got an unusual decrypted value: nan, inf or sign bits not set correctly"

/-- `Paillier.DecryptFloat`. -/
def Paillier.DecryptFloat (pk : Paillier) (ciphertext : Nat) :
    Except String Nat :=
  floatDecode (pk.Decrypt ciphertext)

/-- The scaled exact value of a finite normal double in the band: its real
value times `2^441`, as a signed integer (`mantField * 2^(expField - 634)`
negated when the sign bit is set).  `floatEncode` represents exactly this
quantity in 895-bit twos complement. -/
def scaledValue (b : Nat) : Int :=
  if signField b = 1 then -((mantField b * 2 ^ (expField b - 634) : Nat) : Int)
  else ((mantField b * 2 ^ (expField b - 634) : Nat) : Int)

/-- The 895-bit twos-complement payload that `EncryptFloat` computes for a
finite double whose biased exponent lies in the supported band 634..1412
(`mantissa << 778 >> (389 - exponent)` with the sign folded in). -/
def floatPayload (b : Nat) : Nat :=
  if signField b = 1 then 2 ^ 895 - mantField b * 2 ^ (expField b - 634)
  else mantField b * 2 ^ (expField b - 634)

end paillier

/-! ## `number.py`: byte/long conversions -/

namespace number

/-- Splitting a byte string into consecutive blocks of `k` bytes (the final
block may be shorter), as done by the `struct` pack/unpack loops. -/
def chunksB (k : Nat) (bs : List Nat) : List (List Nat) :=
  if h : bs = [] ∨ k = 0 then []
  else bs.take k :: chunksB k (bs.drop k)
termination_by bs.length
decreasing_by
  push_neg at h
  simp only [List.length_drop]
  have hpos : 0 < bs.length := List.length_pos.mpr h.1
  have hk : k ≠ 0 := h.2
  omega

/-- The 32-bit components of a number, most significant first: the
`while number != 0: components.insert(0, number & 0xffffffff); number >>= 32`
loop of `number.LongToBytes`. -/
def longComponents (n : Nat) : List Nat :=
  if h : n = 0 then []
  else longComponents (n >>> 32) ++ [n &&& 0xffffffff]
termination_by n
decreasing_by
  rw [Nat.shiftRight_eq_div_pow]
  exact Nat.div_lt_self (Nat.pos_of_ne_zero h) (by norm_num)

/-- Big-endian 4-byte encoding of one 32-bit component (`struct '>I'`). -/
def be4 (w : Nat) : List Nat :=
  [w >>> 24 &&& 0xff, w >>> 16 &&& 0xff, w >>> 8 &&& 0xff, w &&& 0xff]

/-- `number.LongToBytes`: zero packs as four zero bytes, otherwise each
32-bit component packs big-endian. -/
def LongToBytes (n : Nat) : List Nat :=
  if n = 0 then [0, 0, 0, 0]
  else ((longComponents n).map be4).flatten

/-- Big-endian value of one 4-byte group (`struct '>I'` unpack). -/
def word4 (l : List Nat) : Nat := l.foldl (fun a b => a * 256 + b) 0

/-- `number.BytesToLong`: left-pad with zero bytes to a multiple of four,
unpack 32-bit big-endian components and combine them, most significant
first (`result += unpacked[i] << 32*(cl-1-i)`). -/
def BytesToLong (bs : List Nat) : Nat :=
  ((chunksB 4 (List.replicate ((4 - bs.length % 4) % 4) 0 ++ bs)).map
    word4).foldl (fun a w => a * 2 ^ 32 + w) 0

end number

/-! ## `common_crypto.AesCbc` (the AES block cipher itself is external to the
repository; it is abstracted as a pair of functions `E`, `D` on 16-byte
blocks, and CBC chaining with PKCS5 padding is embedded from the source) -/

namespace ccrypto

/-- Bytewise XOR of two equal-length blocks (the CBC combining step of the
external `AES.MODE_CBC` cipher). -/
def xorBlock (a b : List Nat) : List Nat :=
  List.zipWith (fun x y => x ^^^ y) a b

/-- CBC encryption of a list of 16-byte blocks under block cipher `E`. -/
def cbcEncBlocks (E : List Nat → List Nat) :
    List Nat → List (List Nat) → List (List Nat)
  | _, [] => []
  | iv, p :: ps =>
    let c := E (xorBlock iv p)
    c :: cbcEncBlocks E c ps

/-- CBC decryption of a list of 16-byte blocks under block decipher `D`. -/
def cbcDecBlocks (D : List Nat → List Nat) :
    List Nat → List (List Nat) → List (List Nat)
  | _, [] => []
  | iv, c :: cs => xorBlock iv (D c) :: cbcDecBlocks D c cs

/-- The PKCS5 padding added by `AesCbc.Encrypt`: `16 - len % 16` copies of
that same value (a full block when the length is a multiple of 16). -/
def pkcs5pad (pt : List Nat) : List Nat :=
  List.replicate (16 - pt.length % 16) (16 - pt.length % 16)

/-- `AesCbc.Encrypt(plaintext, iv)`: when `iv` is `none` a random 16-byte
string `randIv` (passed explicitly) is used and prepended to the result. -/
def AesCbc.Encrypt (E : List Nat → List Nat) (randIv : List Nat)
    (plaintext : List Nat) (iv : Option (List Nat)) :
    Except String (List Nat) :=
  if plaintext = [] then .error "input plaintext cannot be empty."
  else
    match iv with
    | none =>
      .ok (randIv ++
        (cbcEncBlocks E randIv
          (number.chunksB 16 (plaintext ++ pkcs5pad plaintext))).flatten)
    | some v =>
      if v.length ≠ 16 then .error "Supplied iv size is incorrect"
      else
        .ok ((cbcEncBlocks E v
          (number.chunksB 16 (plaintext ++ pkcs5pad plaintext))).flatten)

/-- Python `l[-k:]` for `0 <= k <= len(l)` (`l[-0:]` is all of `l`). -/
def pySliceFromEnd (l : List Nat) (k : Nat) : List Nat :=
  if k = 0 then l else l.drop (l.length - k)

/-- Python `l[:-k]` for `0 <= k <= len(l)` (`l[:-0]` is empty). -/
def pySliceDropEnd (l : List Nat) (k : Nat) : List Nat :=
  if k = 0 then [] else l.take (l.length - k)

/-- The PKCS5 unpadding at the end of `AesCbc.Decrypt`: read the pad length
from the last byte, check the padding bytes, and strip them.  Indexing an
empty plaintext raises `IndexError` in Python. -/
def stripPkcs5 (ptp : List Nat) : Except String (List Nat) :=
  match ptp.getLast? with
  | none => .error "IndexError: string index out of range"
  | some padLen =>
    if 16 < padLen then .error "Incorrect ciphertext padding in last block"
    else if pySliceFromEnd ptp padLen ≠ List.replicate padLen padLen then
      .error "Incorrect ciphertext padding"
    else .ok (pySliceDropEnd ptp padLen)

/-- `AesCbc.Decrypt(ciphertext, iv)`: when `iv` is `none` the first 16 bytes
of the ciphertext are taken as the IV. -/
def AesCbc.Decrypt (D : List Nat → List Nat) (ciphertext : List Nat)
    (iv : Option (List Nat)) : Except String (List Nat) :=
  if ciphertext = [] then .error "ciphertext input cannot be empty."
  else if ciphertext.length % 16 ≠ 0 then
    .error "ciphertext input must be a multiple of block length"
  else
    match iv with
    | none =>
      stripPkcs5 ((cbcDecBlocks D (ciphertext.take 16)
        (number.chunksB 16 (ciphertext.drop 16))).flatten)
    | some v =>
      if v.length ≠ 16 then .error "Supplied iv size is incorrect"
      else stripPkcs5 ((cbcDecBlocks D v (number.chunksB 16 ciphertext)).flatten)

end ccrypto

/-! ## `ebq_crypto.py`: the four ciphers.  base64 and UTF-8 coding are
Python-library externals, abstracted as function parameters `b64e`/`b64d`
and `utf8e`/`utf8d`. -/

namespace ecrypto

/-- `ProbabilisticCipher.Encrypt`: utf-8 encode, AES-CBC encrypt under a
random IV, base64 encode. -/
def ProbabilisticCipher.Encrypt (E : List Nat → List Nat) (randIv : List Nat)
    (utf8e : String → List Nat) (b64e : List Nat → List Nat) (s : String) :
    Except String (List Nat) :=
  if utf8e s = [] then .error "Input plaintext cannot be empty."
  else (ccrypto.AesCbc.Encrypt E randIv (utf8e s) none).map b64e

/-- `ProbabilisticCipher.Decrypt` (default `raw=False`): base64 decode,
AES-CBC decrypt with the prepended IV, utf-8 decode. -/
def ProbabilisticCipher.Decrypt (D : List Nat → List Nat)
    (utf8d : List Nat → Except String String) (b64d : List Nat → List Nat)
    (ct : List Nat) : Except String String :=
  (ccrypto.AesCbc.Decrypt D (b64d ct) none).bind utf8d

/-- `PseudonymCipher.Encrypt`: deterministic AES-CBC under the all-zero IV,
which is not prepended to the ciphertext. -/
def PseudonymCipher.Encrypt (E : List Nat → List Nat)
    (utf8e : String → List Nat) (b64e : List Nat → List Nat) (s : String) :
    Except String (List Nat) :=
  if utf8e s = [] then .error "Input plaintext cannot be empty."
  else
    (ccrypto.AesCbc.Encrypt E [] (utf8e s)
      (some (List.replicate 16 0))).map b64e

/-- `PseudonymCipher.Decrypt` (default `raw=False`). -/
def PseudonymCipher.Decrypt (D : List Nat → List Nat)
    (utf8d : List Nat → Except String String) (b64d : List Nat → List Nat)
    (ct : List Nat) : Except String String :=
  (ccrypto.AesCbc.Decrypt D (b64d ct)
    (some (List.replicate 16 0))).bind utf8d

/-- `HomomorphicIntCipher.Encrypt`: Paillier int64 encryption, long-to-bytes,
base64. -/
def HomomorphicIntCipher.Encrypt (pk : paillier.Paillier)
    (b64e : List Nat → List Nat) (m : Int) (r : Nat) :
    Except String (List Nat) :=
  (pk.EncryptInt64 m r).map (fun c => b64e (number.LongToBytes c))

/-- `HomomorphicIntCipher.Decrypt`. -/
def HomomorphicIntCipher.Decrypt (pk : paillier.Paillier)
    (b64d : List Nat → List Nat) (ct : List Nat) : Except String Int :=
  pk.DecryptInt64 (number.BytesToLong (b64d ct))

/-- `HomomorphicFloatCipher.Encrypt` on the bit pattern of the input float. -/
def HomomorphicFloatCipher.Encrypt (pk : paillier.Paillier)
    (b64e : List Nat → List Nat) (b r : Nat) : Except String (List Nat) :=
  (pk.EncryptFloat b r).map (fun c => b64e (number.LongToBytes c))

/-- `HomomorphicFloatCipher.Decrypt`, returning the bit pattern of the
decrypted float. -/
def HomomorphicFloatCipher.Decrypt (pk : paillier.Paillier)
    (b64d : List Nat → List Nat) (ct : List Nat) : Except String Nat :=
  pk.DecryptFloat (number.BytesToLong (b64d ct))

end ecrypto

/-! ## `query_interpreter.Evaluate`: the residual row evaluator.

The modeled value slice is Python `None`, `bool`, `int` and `str`.  Floats
are Python-library arithmetic external to the repository: the result of a
non-zero true division is supplied by the abstract parameter `fdiv`, and the
object-identity comparison of `is` by the abstract parameter `isid`.  The
operator and builtin tables embed the corresponding entries of
`_UNARY_OPERATORS`, `_BINARY_OPERATORS` and `_*_ARGUMENT_FUNCTIONS`. -/

namespace interpreter

inductive Value where
  | null : Value
  | b (val : Bool) : Value
  | i (val : Int) : Value
  | s (val : String) : Value
deriving DecidableEq

/-- Python truthiness on the modeled slice. -/
def truthy : Value → Bool
  | .null => false
  | .b v => v
  | .i v => v != 0
  | .s v => v != ""

/-- `_UNARY_OPERATORS`: `not` and `~`. -/
def unaryOps (name : String) :
    Option (Value → Except String Value) :=
  if name = "not" then some (fun a => .ok (.b (!truthy a)))
  else if name = "~" then some (fun a =>
    match a with
    | .i v => .ok (.i (-(v + 1)))
    | .b v => .ok (.i (-((if v then 1 else 0) + 1)))
    | _ => .error "TypeError")
  else none

/-- `_BINARY_OPERATORS` (modeled slice).  `/` and `%` raise
`ZeroDivisionError` on a zero right operand; `and`/`or` return an operand
by truthiness exactly as the Python lambdas do. -/
def binaryOps (fdiv : Int → Int → Value)
    (isid : Value → Value → Value) (name : String) :
    Option (Value → Value → Except String Value) :=
  if name = "+" then some (fun a b => match a, b with
    | .i x, .i y => .ok (.i (x + y))
    | .s x, .s y => .ok (.s (x ++ y))
    | _, _ => .error "TypeError")
  else if name = "-" then some (fun a b => match a, b with
    | .i x, .i y => .ok (.i (x - y))
    | _, _ => .error "TypeError")
  else if name = "*" then some (fun a b => match a, b with
    | .i x, .i y => .ok (.i (x * y))
    | _, _ => .error "TypeError")
  else if name = "/" then some (fun a b => match a, b with
    | .i x, .i y =>
      if y = 0 then .error "ZeroDivisionError" else .ok (fdiv x y)
    | _, _ => .error "TypeError")
  else if name = "%" then some (fun a b => match a, b with
    | .i x, .i y =>
      if y = 0 then .error "ZeroDivisionError" else .ok (.i (Int.fmod x y))
    | _, _ => .error "TypeError")
  else if name = "<" then some (fun a b => match a, b with
    | .i x, .i y => .ok (.b (decide (x < y)))
    | _, _ => .error "TypeError")
  else if name = "<=" then some (fun a b => match a, b with
    | .i x, .i y => .ok (.b (decide (x ≤ y)))
    | _, _ => .error "TypeError")
  else if name = ">" then some (fun a b => match a, b with
    | .i x, .i y => .ok (.b (decide (y < x)))
    | _, _ => .error "TypeError")
  else if name = ">=" then some (fun a b => match a, b with
    | .i x, .i y => .ok (.b (decide (y ≤ x)))
    | _, _ => .error "TypeError")
  else if name = "=" ∨ name = "==" then some (fun a b => match a, b with
    | .i x, .i y => .ok (.b (decide (x = y)))
    | .s x, .s y => .ok (.b (decide (x = y)))
    | .b x, .b y => .ok (.b (decide (x = y)))
    | _, _ => .error "TypeError")
  else if name = "!=" then some (fun a b => match a, b with
    | .i x, .i y => .ok (.b (decide (x ≠ y)))
    | .s x, .s y => .ok (.b (decide (x ≠ y)))
    | .b x, .b y => .ok (.b (decide (x ≠ y)))
    | _, _ => .error "TypeError")
  else if name = "and" then some (fun a b =>
    .ok (if truthy a then b else a))
  else if name = "or" then some (fun a b =>
    .ok (if truthy a then a else b))
  else if name = "is" then some (fun a b => .ok (isid a b))
  else none

/-- `_ONE_ARGUMENT_FUNCTIONS` (modeled slice). -/
def oneArgFns (name : String) :
    Option (Value → Except String Value) :=
  if name = "boolean" then some (fun a => .ok (.b (truthy a)))
  else if name = "integer" then some (fun a => match a with
    | .i v => .ok (.i v)
    | .b v => .ok (.i (if v then 1 else 0))
    | _ => .error "TypeError")
  else if name = "abs" then some (fun a => match a with
    | .i v => .ok (.i (if v < 0 then -v else v))
    | .b v => .ok (.i (if v then 1 else 0))
    | _ => .error "TypeError")
  else if name = "length" then some (fun a => match a with
    | .s v => .ok (.i v.length)
    | _ => .error "TypeError")
  else none

/-- `_TWO_ARGUMENT_FUNCTIONS` (modeled slice). -/
def twoArgFns (name : String) :
    Option (Value → Value → Except String Value) :=
  if name = "concat" then some (fun a b => match a, b with
    | .s x, .s y => .ok (.s (x ++ y))
    | _, _ => .error "TypeError")
  else none

/-- `_THREE_ARGUMENT_FUNCTIONS` (modeled slice).  `if` is embedded exactly
as written in the source: `lambda a, b, c: b if a else b`, returning the
second argument in BOTH branches. -/
def threeArgFns (name : String) :
    Option (Value → Value → Value → Except String Value) :=
  if name = "if" then some (fun a b c =>
    .ok (if truthy a then b else b))
  else none

inductive EToken where
  | val (v : Value)
  | opTok (name : String) (numArgs : Nat)
  | fn (name : String)
  | fieldTok (name : String)
deriving DecidableEq

/-- `Evaluate.Resolve`.  The stack is top-first (Python pops from the end of
its list), so an infix `x OP y` is `[opTok OP 2, val y, val x]`.  `fuel`
bounds the recursion depth; any value above the stack length is enough, and
`Evaluate` below supplies one.  For operators the resolved arguments are
checked against `None` BEFORE the table lookup and dispatch
(`if None in args: return None`); for builtin functions the source assigns
`result = None` on a null operand but, lacking an `else`, immediately
overwrites it by applying the function, so no null check is embedded.  The
`try/except ZeroDivisionError` around binary operators surfaces as the
remapping to the `Division by zero.` error. -/
def Resolve (fdiv : Int → Int → Value) (isid : Value → Value → Value) :
    Nat → List EToken → Except String (Value × List EToken)
  | 0, _ => .error "RecursionError"
  | _ + 1, [] => .error "Not enough arguments."
  | fuel + 1, top :: rest =>
    match top with
    | .val v => .ok (v, rest)
    | .fieldTok name => .error (name ++ " does not exist as a column.")
    | .opTok name n =>
      if n = 1 then
        match Resolve fdiv isid fuel rest with
        | .error e => .error e
        | .ok (a1, st) =>
          if a1 = .null then .ok (.null, st)
          else
            match unaryOps name with
            | none => .error "KeyError"
            | some f => (f a1).map (fun v => (v, st))
      else if n = 2 then
        match Resolve fdiv isid fuel rest with
        | .error e => .error e
        | .ok (a2, st1) =>
          match Resolve fdiv isid fuel st1 with
          | .error e => .error e
          | .ok (a1, st2) =>
            if a1 = .null ∨ a2 = .null then .ok (.null, st2)
            else
              match binaryOps fdiv isid name with
              | none => .error "KeyError"
              | some f =>
                match f a1 a2 with
                | .error e =>
                  if e = "ZeroDivisionError" then .error "Division by zero."
                  else .error e
                | .ok v => .ok (v, st2)
      else .error "TypeError"
    | .fn name =>
      match oneArgFns name with
      | some f =>
        match Resolve fdiv isid fuel rest with
        | .error e => .error e
        | .ok (a1, st) => (f a1).map (fun v => (v, st))
      | none =>
        match twoArgFns name with
        | some f =>
          match Resolve fdiv isid fuel rest with
          | .error e => .error e
          | .ok (a2, st1) =>
            match Resolve fdiv isid fuel st1 with
            | .error e => .error e
            | .ok (a1, st2) => (f a1 a2).map (fun v => (v, st2))
        | none =>
          match threeArgFns name with
          | some f =>
            match Resolve fdiv isid fuel rest with
            | .error e => .error e
            | .ok (a3, st1) =>
              match Resolve fdiv isid fuel st1 with
              | .error e => .error e
              | .ok (a2, st2) =>
                match Resolve fdiv isid fuel st2 with
                | .error e => .error e
                | .ok (a1, st3) =>
                  (f a1 a2 a3).map (fun v => (v, st3))
          | none => .error ("No function " ++ name ++ " exists.")

/-- `query_interpreter.Evaluate` (note the source misspells the final error
message as `Invaid number of arguments.`). -/
def Evaluate (fdiv : Int → Int → Value)
    (isid : Value → Value → Value) (stack : List EToken) :
    Except String Value :=
  match Resolve fdiv isid (stack.length + 1) stack with
  | .error e => .error e
  | .ok (v, []) => .ok v
  | .ok (_, _ :: _) => .error "Invaid number of arguments."

end interpreter

/-! ## `common_util.py` tokens and predicates, and the WHERE/HAVING
rewriter of `query_interpreter.RewriteSelectionCriteria`.

Tokens are Python `str` subclasses; the display string of an encrypted
token is its column name with the type prefix prepended (dotted column
paths are out of the modeled slice, so the prefix lands on the whole
name).  String literals are modeled double-quoted, with `contents` holding
`token[1:-1]`. -/

namespace util

def DISTINCT_STRING : String := "p698000442118338_"

def HOMOMORPHIC_FLOAT_PRE : String := DISTINCT_STRING ++ "HOMOMORPHIC_FLOAT_"

def HOMOMORPHIC_INT_PRE : String := DISTINCT_STRING ++ "HOMOMORPHIC_INT_"

def PROBABILISTIC_PRE : String := DISTINCT_STRING ++ "PROBABILISTIC_"

def PSEUDONYM_PRE : String := DISTINCT_STRING ++ "PSEUDONYM_"

def SEARCHWORDS_PRE : String := DISTINCT_STRING ++ "SEARCHWORDS_"

def ENCRYPTED_FIELD_PRES : List String :=
  [HOMOMORPHIC_FLOAT_PRE, HOMOMORPHIC_INT_PRE, PROBABILISTIC_PRE,
    PSEUDONYM_PRE, SEARCHWORDS_PRE]

inductive QTok where
  | strLit (contents : String)
  | pseudonym (name : String) (related : Option String)
  | probabilistic (name : String)
  | searchwords (name : String)
  | homomorphicInt (name : String)
  | homomorphicFloat (name : String)
  | fieldTok (name : String)
  | opTok (name : String) (numArgs : Nat)
  | fnTok (name : String)
  | plainStr (val : String)
deriving DecidableEq

/-- `str(token)`. -/
def QTok.display : QTok → String
  | .strLit contents => "\"" ++ contents ++ "\""
  | .pseudonym name _ => PSEUDONYM_PRE ++ name
  | .probabilistic name => PROBABILISTIC_PRE ++ name
  | .searchwords name => SEARCHWORDS_PRE ++ name
  | .homomorphicInt name => HOMOMORPHIC_INT_PRE ++ name
  | .homomorphicFloat name => HOMOMORPHIC_FLOAT_PRE ++ name
  | .fieldTok name => name
  | .opTok name _ => name
  | .fnTok name => name
  | .plainStr val => val

/-- `getattr(token, 'related', None)`: every `EncryptedToken` has the
attribute, but only `PseudonymToken` is ever constructed with it set. -/
def QTok.related : QTok → Option String
  | .pseudonym _ r => r
  | _ => none

/-- `common_util.IsEncrypted`: an `EncryptedToken` instance, or any string
starting with one of the encrypted-field prefixes (`token.startswith(p)`,
expressed on the underlying character lists). -/
def IsEncrypted (t : QTok) : Bool :=
  match t with
  | .pseudonym _ _ => true
  | .probabilistic _ => true
  | .searchwords _ => true
  | .homomorphicInt _ => true
  | .homomorphicFloat _ => true
  | _ => ENCRYPTED_FIELD_PRES.any (fun p => p.data.isPrefixOf t.display.data)

def IsEncryptedExpression (tokens : List QTok) : Bool :=
  tokens.any IsEncrypted

/-- `common_util.IsDeterministic` (despite its name it flags the
NON-deterministic encryption types): an `EncryptedToken` that is not a
`PseudonymToken`, or a string starting with a non-pseudonym encrypted
prefix. -/
def IsDeterministic (t : QTok) : Bool :=
  match t with
  | .pseudonym _ _ => false
  | .probabilistic _ => true
  | .searchwords _ => true
  | .homomorphicInt _ => true
  | .homomorphicFloat _ => true
  | _ => ENCRYPTED_FIELD_PRES.any
      (fun p => p ≠ PSEUDONYM_PRE && p.data.isPrefixOf t.display.data)

def IsDeterministicExpression (tokens : List QTok) : Bool :=
  tokens.any IsDeterministic

/-- The claim-side characterization of the C4/C7 error condition: a token
denoting a probabilistic-, searchwords-, or homomorphic-encrypted field. -/
def isNondetEncryptedField_spec (t : QTok) : Bool :=
  match t with
  | .probabilistic _ => true
  | .searchwords _ => true
  | .homomorphicInt _ => true
  | .homomorphicFloat _ => true
  | _ => false

end util

namespace interpreter

/-- `RewritePseudonymEncryption(token, op2)`: a string literal is replaced
by the quoted pseudonym encryption of its contents, under the related-tag
cipher of `op2` when `op2` carries a `related` attribute (raising when the
schema has no matching entry), and under the table cipher otherwise; any
non-literal token passes through unchanged.  The pseudonym ciphers derived
from the master key are abstracted by `tableEnc` (the table cipher) and
`relEnc` (the `pseudonym_ciphers` dict built from the schema). -/
def RewritePseudonymEncryption (tableEnc : String → String)
    (relEnc : String → Option (String → String))
    (token op2 : util.QTok) : Except String util.QTok :=
  match token with
  | .strLit contents =>
    match op2.related with
    | some r =>
      match relEnc r with
      | some enc => .ok (.plainStr ("\"" ++ enc contents ++ "\""))
      | none => .error "Cannot process token with related attribute in schema without matching related attribute"
    | none => .ok (.plainStr ("\"" ++ tableEnc contents ++ "\""))
  | t => .ok t

/-- `RewriteSelectionCriteria.CheckAndRewriteStack`, stack top-first
(Python pops from the end); `fuel` bounds the recursion depth and
`RewriteSelectionCriteria` below supplies stack length + 1.  The
searchwords `contains` rewriting needs the schema and the string hasher
and is abstracted as `containsRw` (`RewriteContainsOrFail`); builtin
function names are resolved against the same argument tables as the
evaluator. -/
def CheckAndRewriteStack (tableEnc : String → String)
    (relEnc : String → Option (String → String))
    (containsRw : util.QTok → util.QTok →
      Except String (util.QTok × util.QTok)) :
    Nat → List util.QTok → Except String (util.QTok × List util.QTok)
  | 0, _ => .error "RecursionError"
  | _ + 1, [] => .error "Not enough arguments."
  | fuel + 1, top :: rest =>
    match top with
    | .opTok name n =>
      if n = 1 then
        match CheckAndRewriteStack tableEnc relEnc containsRw fuel rest with
        | .error e => .error e
        | .ok (a1, st) =>
          .ok (.plainStr (name ++ " " ++ a1.display), st)
      else if n = 2 then
        match CheckAndRewriteStack tableEnc relEnc containsRw fuel rest with
        | .error e => .error e
        | .ok (a2, st1) =>
          match CheckAndRewriteStack tableEnc relEnc containsRw fuel st1 with
          | .error e => .error e
          | .ok (a1, st2) =>
            if name = "=" ∨ name = "==" ∨ name = "!=" then
              if util.IsDeterministicExpression [a1, a2] then
                .error "Cannot do equality on probabilistic encryption, only pseudonym encryption."
              else if (match a1 with
                  | .pseudonym _ _ => true
                  | _ => false) = true
                ∨ (match a2 with
                  | .pseudonym _ _ => true
                  | _ => false) = true then
                match RewritePseudonymEncryption tableEnc relEnc a1 a2 with
                | .error e => .error e
                | .ok a1' =>
                  match RewritePseudonymEncryption tableEnc relEnc a2 a1' with
                  | .error e => .error e
                  | .ok a2' =>
                    .ok (.plainStr ("(" ++ a1'.display ++ " " ++ name
                      ++ " " ++ a2'.display ++ ")"), st2)
              else
                .ok (.plainStr ("(" ++ a1.display ++ " " ++ name ++ " "
                  ++ a2.display ++ ")"), st2)
            else if name = "contains" then
              if util.IsEncryptedExpression [a2] then
                .error "Invalid where/having expression."
              else
                match containsRw a1 a2 with
                | .error e => .error e
                | .ok (a1', a2') =>
                  .ok (.plainStr ("(" ++ a1'.display ++ " " ++ name
                    ++ " " ++ a2'.display ++ ")"), st2)
            else
              if util.IsEncryptedExpression [a1, a2] then
                .error "Invalid where/having expression."
              else
                .ok (.plainStr ("(" ++ a1.display ++ " " ++ name ++ " "
                  ++ a2.display ++ ")"), st2)
      else .error "TypeError"
    | .fnTok name =>
      match oneArgFns name with
      | some _ =>
        match CheckAndRewriteStack tableEnc relEnc containsRw fuel rest with
        | .error e => .error e
        | .ok (a1, st) =>
          if util.IsEncryptedExpression [a1] then
            .error "Invalid where/having expression."
          else .ok (.plainStr (name ++ "(" ++ a1.display ++ ")"), st)
      | none =>
        match twoArgFns name with
        | some _ =>
          match CheckAndRewriteStack tableEnc relEnc containsRw fuel
              rest with
          | .error e => .error e
          | .ok (a2, st1) =>
            match CheckAndRewriteStack tableEnc relEnc containsRw fuel
                st1 with
            | .error e => .error e
            | .ok (a1, st2) =>
              if util.IsEncryptedExpression [a1, a2] then
                .error "Invalid where/having expression."
              else
                .ok (.plainStr (name ++ "(" ++ a1.display ++ ", "
                  ++ a2.display ++ ")"), st2)
        | none =>
          match threeArgFns name with
          | some _ =>
            match CheckAndRewriteStack tableEnc relEnc containsRw fuel
                rest with
            | .error e => .error e
            | .ok (a3, st1) =>
              match CheckAndRewriteStack tableEnc relEnc containsRw fuel
                  st1 with
              | .error e => .error e
              | .ok (a2, st2) =>
                match CheckAndRewriteStack tableEnc relEnc containsRw
                    fuel st2 with
                | .error e => .error e
                | .ok (a1, st3) =>
                  if util.IsEncryptedExpression [a1, a2, a3] then
                    .error "Invalid where/having expression."
                  else
                    .ok (.plainStr (name ++ "(" ++ a1.display ++ ", "
                      ++ a2.display ++ ", " ++ a3.display ++ ")"), st3)
          | none => .error (name ++ " function does not exist.")
    | t => .ok (t, rest)

/-- `RewriteSelectionCriteria` applied to the postfix stack (top-first):
rewrite and fail if tokens remain. -/
def RewriteSelectionCriteria (tableEnc : String → String)
    (relEnc : String → Option (String → String))
    (containsRw : util.QTok → util.QTok →
      Except String (util.QTok × util.QTok))
    (stack : List util.QTok) : Except String String :=
  match CheckAndRewriteStack tableEnc relEnc containsRw
      (stack.length + 1) stack with
  | .error e => .error e
  | .ok (v, []) => .ok v.display
  | .ok (_, _ :: _) => .error "Too many arguments."

end interpreter

/-! ## `query_lib._CollapseAggregations`: the COUNT / DISTINCTCOUNT branch.

The branch operates on the already-extracted argument expressions: the
postfix argument `postfixExpr` (`postfix_exprs[0]`) and its infix rendering
`infixExpr` (`infix_exprs[0]`, produced by `interpreter.ToInfix`); the
single-argument case of COUNT/DISTINCTCOUNT is modeled.  It emits the one
`AggregationQueryToken` that replaces the argument subtree. -/

namespace qlib

def collapseCountDistinct (functionType : String)
    (postfixExpr : List util.QTok) (infixExpr : String) :
    Except String String :=
  if functionType = "DISTINCTCOUNT"
      ∧ util.IsDeterministicExpression postfixExpr = true then
    .error "Cannot do distinct count on non-pseudonym encryption."
  else
    .ok ("COUNT(" ++ (if functionType = "DISTINCTCOUNT"
      then "DISTINCT " ++ infixExpr else infixExpr) ++ ")")

end qlib

/-! ## Helper lemmas -/

theorem mapM_ok {α β : Type} {f : α → Except String β} {g : α → β}
    (l : List α) (h : ∀ x ∈ l, f x = .ok (g x)) :
    l.mapM f = .ok (l.map g) := by
  induction l with
  | nil => rfl
  | cons a t ih =>
    rw [List.mapM_cons, h a (by simp), ih (fun x hx => h x (by simp [hx]))]
    rfl

theorem map_getD_range {α : Type} (l : List α) (d : α) (n : Nat)
    (h : l.length = n) :
    (List.range n).map (fun j => l.getD j d) = l := by
  apply List.ext_getElem
  · simp [h]
  · intro i h1 h2
    simp only [List.getElem_map, List.getElem_range]
    exact List.getD_eq_getElem l d (by omega)

theorem flatten_map16 {α : Type} (F : α → List Nat) (l : List α)
    (h : ∀ x ∈ l, (F x).length = 16) :
    ((l.map F).flatten).length = 16 * l.length := by
  induction l with
  | nil => simp
  | cons a t ih =>
    simp only [List.map_cons, List.flatten_cons, List.length_append,
      List.length_cons]
    rw [h a (by simp), ih (fun x hx => h x (by simp [hx]))]
    ring

theorem flatten_blocks (B : Nat → List Nat) (hB : ∀ k, (B k).length = 16) :
    ∀ (m f : Nat), ((List.range m).map (fun i => B (f + i))).flatten
      = (List.range (16 * m)).map
          (fun j => (B ((16 * f + j) / 16)).getD ((16 * f + j) % 16) 0) := by
  intro m
  induction m with
  | zero => intro f; simp
  | succ m ih =>
    intro f
    rw [List.range_succ_eq_map, List.map_cons, List.flatten_cons, List.map_map]
    have htail : (List.range m).map ((fun i => B (f + i)) ∘ Nat.succ)
        = (List.range m).map (fun i => B ((f + 1) + i)) := by
      apply List.map_congr_left
      intro a _
      simp only [Function.comp]
      congr 1
      omega
    rw [htail, ih (f + 1)]
    have hsz : 16 * (m + 1) = 16 + 16 * m := by ring
    rw [hsz, List.range_add, List.map_append, List.map_map]
    congr 1
    · have hhead : (List.range 16).map
          (fun j => (B ((16 * f + j) / 16)).getD ((16 * f + j) % 16) 0)
          = (List.range 16).map (fun j => (B f).getD j 0) := by
        apply List.map_congr_left
        intro a ha
        rw [List.mem_range] at ha
        rw [show (16 * f + a) / 16 = f by omega, show (16 * f + a) % 16 = a by omega]
      rw [hhead, map_getD_range _ _ _ (hB f), Nat.add_zero]
    · apply List.map_congr_left
      intro a _
      simp only [Function.comp]
      rw [show 16 * f + (16 + a) = 16 * (f + 1) + a by ring]

theorem PRF_sixteen (hmac : List Nat → List Nat → List Nat)
    (key input : List Nat) (hk : 1 ≤ key.length) :
    ccrypto.PRF hmac key input 16
      = .ok ((hmac key (ccrypto.format8 0 ++ input)).take 16) := by
  have hm : (List.range (16 / 16)).mapM
      (fun c => (ccrypto.prfBlock hmac key input c).map (·.take 16))
      = .ok [(hmac key (ccrypto.format8 0 ++ input)).take 16] := by
    rw [show List.range (16 / 16) = [0] from rfl]
    rw [mapM_ok (g := fun c => (hmac key (ccrypto.format8 c ++ input)).take 16)
      [0] (by intro x hx; simp only [List.mem_singleton] at hx; subst hx; rfl)]
    rfl
  unfold ccrypto.PRF
  rw [if_neg (by omega), if_neg (by omega)]
  rw [hm]
  simp

theorem drop_range (s e : Nat) (h : s ≤ e) :
    (List.range e).drop s = (List.range (e - s)).map (s + ·) := by
  have hd := List.drop_left (List.range s) ((List.range (e - s)).map (s + ·))
  simp only [List.length_range] at hd
  conv_lhs => rw [show e = s + (e - s) by omega, List.range_add]
  exact hd

theorem GetNextBytes_stream (hmac : List Nat → List Nat → List Nat)
    (seed : List Nat) (c n : Nat)
    (hd : ∀ k m, 16 ≤ (hmac k m).length) (hs : 1 ≤ seed.length) :
    ccrypto.PRG.GetNextBytes hmac ⟨seed, c⟩ n
      = .ok ((List.range n).map (fun i => ccrypto.streamByte hmac seed (c + i)),
             ⟨seed, c + n⟩) := by
  have hB : ∀ k, ((fun (k : Nat) => (hmac seed
      (ccrypto.format8 0 ++ strBytes (toString k))).take 16) k).length = 16 := by
    intro k
    simp only [List.length_take]
    exact Nat.min_eq_left (hd _ _)
  have hmapm : (List.range ((c + n) / 16 + 1 - c / 16)).mapM
      (fun i => ccrypto.PRF hmac seed (strBytes (toString (c / 16 + i))) 16)
      = .ok ((List.range ((c + n) / 16 + 1 - c / 16)).map
          (fun i => (hmac seed
            (ccrypto.format8 0 ++ strBytes (toString (c / 16 + i)))).take 16)) := by
    apply mapM_ok
    intro x _
    exact PRF_sixteen hmac seed (strBytes (toString (c / 16 + x))) hs
  unfold ccrypto.PRG.GetNextBytes
  dsimp only
  rw [hmapm]
  simp only [Except.map, Except.ok.injEq, Prod.mk.injEq, and_true]
  rw [flatten_blocks
    (fun (k : Nat) =>
      (hmac seed (ccrypto.format8 0 ++ strBytes (toString k))).take 16)
    hB ((c + n) / 16 + 1 - c / 16) (c / 16)]
  rw [List.length_map, List.length_range]
  rw [show 16 * ((c + n) / 16 + 1 - c / 16) - (16 - (c + n) % 16)
      = c % 16 + n by omega]
  rw [← List.map_take, List.take_range, Nat.min_eq_left (by omega),
    ← List.map_drop, drop_range (c % 16) (c % 16 + n) (by omega),
    show c % 16 + n - c % 16 = n by omega, List.map_map]
  apply List.map_congr_left
  intro a _
  simp only [Function.comp]
  rw [show 16 * (c / 16) + (c % 16 + a) = c + a by omega]
  rfl

theorem except_bind_ok {α β : Type} (a : α) (k : α → Except String β) :
    (Except.ok a : Except String α).bind k = k a := rfl

theorem except_bind_ok' {α β : Type} (a : α) (k : α → Except String β) :
    ((Except.ok a : Except String α) >>= k) = k a := rfl

theorem except_map_ok {α β : Type} (f : α → β) (a : α) :
    Except.map f (Except.ok a : Except String α) = .ok (f a) := rfl

/-- C6 (amended): for `1 ≤ L < 100000000` and a non-empty key, `PRF` returns
the concatenation of the first 16 bytes of `hmac(key, format8(i) ++ input)`
for `i = 0, 1, 2, ...`, truncated to exactly `L` bytes, where `format8(i)` is
the decimal of `i` LEFT-padded with spaces to 8 characters (Python `'%8s'`
right-justifies). -/
theorem PRF_eq_prfSpec (hmac : List Nat → List Nat → List Nat)
    (key input : List Nat) (L : Nat)
    (hd : ∀ k m, 16 ≤ (hmac k m).length)
    (hk : 1 ≤ key.length) (hL1 : 1 ≤ L) (hL2 : L < 100000000) :
    ccrypto.PRF hmac key input L
      = .ok (ccrypto.prfSpec hmac key input L ccrypto.format8)
    ∧ ∀ i, 100000000 ≤ i → ccrypto.IntToFixedSizeString i
      = .error "value needs to be a positive integer less than 100000000" := by
  refine ⟨?_, fun i hi => by unfold ccrypto.IntToFixedSizeString; rw [if_neg (by omega)]⟩
  have hblocks : ∀ (M : Nat), M ≤ 100000000 → (List.range M).mapM
      (fun c => (ccrypto.prfBlock hmac key input c).map (·.take 16))
      = .ok ((List.range M).map
          (fun c => (hmac key (ccrypto.format8 c ++ input)).take 16)) := by
    intro M hM
    apply mapM_ok
    intro x hx
    rw [List.mem_range] at hx
    unfold ccrypto.prfBlock ccrypto.IntToFixedSizeString
    rw [if_pos (by omega)]
    rfl
  have hlen : (((List.range (L / 16)).map
      (fun c => (hmac key (ccrypto.format8 c ++ input)).take 16)).flatten).length
      = 16 * (L / 16) := by
    rw [flatten_map16]
    · simp
    · intro x _
      simp only [List.length_take]
      exact Nat.min_eq_left (hd _ _)
  unfold ccrypto.PRF
  rw [if_neg (by omega), if_neg (by omega)]
  by_cases h0 : L % 16 = 0
  · rw [hblocks (L / 16) (by omega), except_bind_ok']
    rw [if_neg (by omega)]
    unfold ccrypto.prfSpec
    rw [show (L + 15) / 16 = L / 16 by omega]
    rw [List.take_of_length_le (by rw [hlen]; omega)]
    rfl
  · rw [hblocks (L / 16) (by omega), except_bind_ok']
    rw [if_pos (by omega)]
    have hlast : ccrypto.prfBlock hmac key input (L / 16)
        = .ok (hmac key (ccrypto.format8 (L / 16) ++ input)) := by
      unfold ccrypto.prfBlock ccrypto.IntToFixedSizeString
      rw [if_pos (by omega)]
      rfl
    rw [hlast, except_bind_ok']
    unfold ccrypto.prfSpec
    rw [show (L + 15) / 16 = L / 16 + 1 by omega]
    rw [List.range_succ, List.map_append, List.flatten_append]
    simp only [List.map_cons, List.map_nil, List.flatten_cons, List.flatten_nil,
      List.append_nil]
    have hbase : (((List.range (L / 16)).map
        (fun c => (hmac key (ccrypto.format8 c ++ input)).take 16)).flatten).length
        ≤ L := by rw [hlen]; omega
    conv_rhs => rw [List.take_append_eq_append_take, List.take_of_length_le hbase, hlen]
    rw [List.take_take]
    rw [show L - 16 * (L / 16) = L % 16 by omega]
    rw [show L % 16 ⊓ 16 = L % 16 by omega]
    rfl

/-- C6 counterexample to the claim as stated: `format8` left-pads (Python
`'%8s' % i` right-justifies), so with the identity digest the PRF output
starts with the bytes of `"       0"`, not of the right-padded `"0       "`
described by the claim. -/
theorem PRF_format8RightPadded_counterexample :
    ccrypto.PRF (fun _ m => m) [1] [0, 0, 0, 0, 0, 0, 0, 0] 16
      ≠ .ok (ccrypto.prfSpec (fun _ m => m) [1] [0, 0, 0, 0, 0, 0, 0, 0] 16
             ccrypto.format8RightPadded) := by decide

/-- Witness for `PRF_eq_prfSpec` at a concrete digest function, key, input and
output length. -/
theorem PRF_eq_prfSpec_witness :
    ccrypto.PRF (fun _ _ => List.range 20) [7] [1, 2, 3] 20
      = .ok (ccrypto.prfSpec (fun _ _ => List.range 20) [7] [1, 2, 3] 20
             ccrypto.format8)
    ∧ ccrypto.IntToFixedSizeString 100000000
      = .error "value needs to be a positive integer less than 100000000" :=
  ⟨(PRF_eq_prfSpec _ _ _ _ (fun _ _ => by simp) (by simp) (by omega) (by omega)).1,
   (PRF_eq_prfSpec (fun _ _ => List.range 20) [7] [1, 2, 3] 20
     (fun _ _ => by simp) (by simp) (by omega) (by omega)).2 100000000 (by omega)⟩

/-- C8: the pseudorandom generator's byte paging is split-invariant: reading
`k1` bytes and then `k2` bytes from one `PRG(seed)` instance concatenates to
reading `k1 + k2` bytes from a fresh `PRG(seed)` instance (with identical
final state). -/
theorem PRG_getNextBytes_split (hmac : List Nat → List Nat → List Nat)
    (seed : List Nat) (k1 k2 : Nat)
    (hd : ∀ k m, 16 ≤ (hmac k m).length) (hs : 16 ≤ seed.length)
    (h1 : 1 ≤ k1) (h2 : 1 ≤ k2) :
    (ccrypto.PRG.GetNextBytes hmac ⟨seed, 0⟩ k1).bind
      (fun r1 => (ccrypto.PRG.GetNextBytes hmac r1.2 k2).map
        (fun r2 => (r1.1 ++ r2.1, r2.2)))
    = ccrypto.PRG.GetNextBytes hmac ⟨seed, 0⟩ (k1 + k2) := by
  have hs1 : 1 ≤ seed.length := by omega
  rw [GetNextBytes_stream hmac seed 0 k1 hd hs1,
      GetNextBytes_stream hmac seed 0 (k1 + k2) hd hs1, except_bind_ok]
  simp only
  rw [GetNextBytes_stream hmac seed (0 + k1) k2 hd hs1, except_map_ok]
  simp only [Nat.zero_add, Except.ok.injEq, Prod.mk.injEq]
  rw [List.range_add, List.map_append, List.map_map]
  simp [Function.comp]

/-- Witness for `PRG_getNextBytes_split` at a concrete digest, seed and split. -/
theorem PRG_getNextBytes_split_witness :
    (ccrypto.PRG.GetNextBytes (fun _ _ => List.range 20) ⟨List.range 16, 0⟩ 5).bind
      (fun r1 => (ccrypto.PRG.GetNextBytes (fun _ _ => List.range 20) r1.2 27).map
        (fun r2 => (r1.1 ++ r2.1, r2.2)))
    = ccrypto.PRG.GetNextBytes (fun _ _ => List.range 20) ⟨List.range 16, 0⟩ (5 + 27) :=
  PRG_getNextBytes_split _ _ 5 27 (fun _ _ => by simp) (by simp) (by omega)
    (by omega)

/-! ## Bit-level helper lemmas -/

theorem xor_div_two (a b : Nat) : (a ^^^ b) / 2 = a / 2 ^^^ b / 2 := by
  have h : ∀ x : Nat, x / 2 = x >>> 1 := by
    intro x
    rw [Nat.shiftRight_eq_div_pow]
  rw [h, h, h]
  apply Nat.eq_of_testBit_eq
  intro i
  simp [Nat.testBit_shiftRight, Nat.testBit_xor]

theorem xor_mod_two (a b : Nat) : (a ^^^ b) % 2 = a % 2 ^^^ b % 2 := by
  have h1 : ∀ x : Nat, x % 2 = x &&& 1 := by
    intro x
    conv_rhs => rw [show (1 : Nat) = 2 ^ 1 - 1 by norm_num]
    rw [Nat.and_pow_two_sub_one_eq_mod]
  rw [h1, h1, h1, Nat.and_xor_distrib_right]

theorem xor_ones_of_lt : ∀ (k : Nat), ∀ a, a < 2 ^ k →
    a ^^^ (2 ^ k - 1) = 2 ^ k - 1 - a := by
  intro k
  induction k with
  | zero =>
    intro a ha
    interval_cases a
    rfl
  | succ k ih =>
    intro a ha
    have hp : 2 ^ (k + 1) = 2 * 2 ^ k := by rw [Nat.pow_succ]; ring
    have h1 : (1 : Nat) ≤ 2 ^ k := Nat.one_le_two_pow
    have hx : a ^^^ (2 ^ (k + 1) - 1)
        = 2 * ((a ^^^ (2 ^ (k + 1) - 1)) / 2) + (a ^^^ (2 ^ (k + 1) - 1)) % 2 := by
      omega
    rw [hx, xor_div_two, xor_mod_two]
    rw [show (2 ^ (k + 1) - 1) / 2 = 2 ^ k - 1 by omega]
    rw [show (2 ^ (k + 1) - 1) % 2 = 1 by omega]
    rw [ih (a / 2) (by omega)]
    rcases Nat.mod_two_eq_zero_or_one a with h | h <;> rw [h]
    · rw [show (0 : Nat) ^^^ 1 = 1 from rfl]
      omega
    · rw [show (1 : Nat) ^^^ 1 = 0 from rfl]
      omega

theorem testBit_high_false {x i : Nat} (h : x < 2 ^ i) : x.testBit i = false :=
  Nat.testBit_lt_two_pow h

theorem split_xor (k h lo m : Nat) (hlo : lo < 2 ^ k) (hm : m < 2 ^ k) :
    (2 ^ k * h + lo) ^^^ m = 2 ^ k * h + (lo ^^^ m) := by
  have hxm : lo ^^^ m < 2 ^ k := Nat.xor_lt_two_pow hlo hm
  apply Nat.eq_of_testBit_eq
  intro i
  rw [Nat.testBit_xor, Nat.testBit_mul_pow_two_add _ hlo,
    Nat.testBit_mul_pow_two_add _ hxm]
  by_cases hik : i < k
  · simp [hik, Nat.testBit_xor]
  · have hmf : m.testBit i = false :=
      testBit_high_false (lt_of_lt_of_le hm (Nat.pow_le_pow_right (by omega) (by omega)))
    simp [hik, hmf]

theorem xor_ones_mask (k x : Nat) :
    x ^^^ (2 ^ k - 1) = 2 ^ k * (x / 2 ^ k) + (2 ^ k - 1 - x % 2 ^ k) := by
  have h2 : (0 : Nat) < 2 ^ k := Nat.pos_pow_of_pos k (by omega)
  conv_lhs =>
    rw [show x = 2 ^ k * (x / 2 ^ k) + x % 2 ^ k from (Nat.div_add_mod x (2 ^ k)).symm]
  rw [split_xor _ _ _ _ (Nat.mod_lt _ h2) (by omega)]
  rw [xor_ones_of_lt k _ (Nat.mod_lt _ h2)]

theorem and_shiftLeft_shiftRight (x a k : Nat) :
    (x &&& (a <<< k)) >>> k = (x >>> k) &&& a := by
  apply Nat.eq_of_testBit_eq
  intro i
  rw [Nat.testBit_shiftRight, Nat.testBit_and, Nat.testBit_shiftLeft,
    Nat.testBit_and, Nat.testBit_shiftRight]
  have h1 : k + i - k = i := by omega
  have h2 : k ≤ k + i := by omega
  simp [h1, h2]

/-! ## Paillier decryption correctness -/

theorem pow_one_add_sq (N : Nat) : ∀ k, (1 + N) ^ k ≡ 1 + k * N [MOD N ^ 2] := by
  intro k
  induction k with
  | zero => simpa using Nat.ModEq.refl (1 : Nat)
  | succ k ih =>
    have h1 : (1 + N) ^ (k + 1) = (1 + N) ^ k * (1 + N) := by ring
    rw [h1]
    have h2 : (1 + N) ^ k * (1 + N) ≡ (1 + k * N) * (1 + N) [MOD N ^ 2] :=
      ih.mul_right _
    refine h2.trans ?_
    have h3 : (1 + k * N) * (1 + N) = (1 + (k + 1) * N) + k * N ^ 2 := by ring
    rw [h3]
    have h4 : (1 + (k + 1) * N) + k * N ^ 2 ≡ (1 + (k + 1) * N) + 0 [MOD N ^ 2] :=
      Nat.ModEq.add_left _ ((Nat.modEq_zero_iff_dvd).mpr ⟨k, by ring⟩)
    simpa using h4

theorem totient_sq_of_pq {p q : Nat} (hp : p.Prime) (hq : q.Prime)
    (hne : p ≠ q) :
    Nat.totient ((p * q) ^ 2) = p * q * ((p - 1) * (q - 1)) := by
  have hco : Nat.Coprime (p ^ 2) (q ^ 2) :=
    ((Nat.coprime_primes hp hq).mpr hne).pow _ _
  have h1 : (p * q) ^ 2 = p ^ 2 * q ^ 2 := by ring
  rw [h1, Nat.totient_mul hco, Nat.totient_prime_pow hp (by omega),
    Nat.totient_prime_pow hq (by omega)]
  have hp2 := hp.two_le
  have hq2 := hq.two_le
  rw [show (2 : Nat) - 1 = 1 by rfl, pow_one, pow_one]
  ring

theorem coprime_list_prod (n : Nat) (l : List Nat)
    (h : ∀ x ∈ l, x.Coprime n) : (l.prod).Coprime n := by
  induction l with
  | nil => simp
  | cons a t ih =>
    rw [List.prod_cons]
    exact (h a (by simp)).mul (ih (fun x hx => h x (by simp [hx])))

theorem encrypt_mod (pk : paillier.Paillier) (M R : Nat) :
    pk.Encrypt M R % pk.nsquare = pk.g ^ M * R ^ pk.n % pk.nsquare := by
  unfold paillier.Paillier.Encrypt paillier.ModExp
  rw [Nat.mod_mod_of_dvd _ dvd_rfl, ← Nat.mul_mod]

theorem add_form (pk : paillier.Paillier) (c1 c2 M1 M2 R1 R2 : Nat)
    (h1 : c1 % pk.nsquare = pk.g ^ M1 * R1 ^ pk.n % pk.nsquare)
    (h2 : c2 % pk.nsquare = pk.g ^ M2 * R2 ^ pk.n % pk.nsquare) :
    pk.Add c1 c2 % pk.nsquare
      = pk.g ^ (M1 + M2) * (R1 * R2) ^ pk.n % pk.nsquare := by
  unfold paillier.Paillier.Add
  rw [Nat.mod_mod_of_dvd _ dvd_rfl, Nat.mul_mod, h1, h2, ← Nat.mul_mod]
  congr 1
  rw [pow_add, mul_pow]
  ring

theorem foldl_add_form (pk : paillier.Paillier) :
    ∀ (pairs : List (Nat × Nat)) (c M R : Nat),
    c % pk.nsquare = pk.g ^ M * R ^ pk.n % pk.nsquare →
    ((pairs.map (fun x => pk.Encrypt x.1 x.2)).foldl pk.Add c) % pk.nsquare
      = pk.g ^ (M + (pairs.map Prod.fst).sum)
          * (R * (pairs.map Prod.snd).prod) ^ pk.n % pk.nsquare := by
  intro pairs
  induction pairs with
  | nil =>
    intro c M R hc
    simpa using hc
  | cons hd tl ih =>
    intro c M R hc
    simp only [List.map_cons, List.foldl_cons]
    have hstep := add_form pk c (pk.Encrypt hd.1 hd.2) M hd.1 R hd.2 hc
      (encrypt_mod pk hd.1 hd.2)
    have hrec := ih (pk.Add c (pk.Encrypt hd.1 hd.2)) (M + hd.1) (R * hd.2) hstep
    rw [hrec]
    simp only [List.map_cons, List.sum_cons, List.prod_cons]
    rw [show M + hd.1 + (tl.map Prod.fst).sum
        = M + (hd.1 + (tl.map Prod.fst).sum) by omega]
    rw [show R * hd.2 * (tl.map Prod.snd).prod
        = R * (hd.2 * (tl.map Prod.snd).prod) by ring]

theorem sumCiphers_form (pk : paillier.Paillier) (hd : Nat × Nat)
    (tl : List (Nat × Nat)) :
    (pk.SumCiphers ((hd :: tl).map (fun x => pk.Encrypt x.1 x.2))) % pk.nsquare
      = pk.g ^ (((hd :: tl).map Prod.fst).sum)
          * (((hd :: tl).map Prod.snd).prod) ^ pk.n % pk.nsquare := by
  simp only [List.map_cons]
  show (((tl.map (fun x => pk.Encrypt x.1 x.2))).foldl pk.Add
      (pk.Encrypt hd.1 hd.2)) % pk.nsquare = _
  rw [foldl_add_form pk tl (pk.Encrypt hd.1 hd.2) hd.1 hd.2
    (encrypt_mod pk hd.1 hd.2)]
  simp [List.sum_cons, List.prod_cons]

/-- Core Paillier correctness: decrypting any value congruent to
`g^M * R^n mod n^2` with `gcd(R, n) = 1` under a valid key yields `M mod n`. -/
theorem decrypt_form (pk : paillier.Paillier) {p q : Nat}
    (vk : pk.ValidKey p q) (M R : Nat) (hR : R.Coprime pk.n) (c : Nat)
    (hc : c % pk.nsquare = pk.g ^ M * R ^ pk.n % pk.nsquare) :
    pk.Decrypt c = M % pk.n := by
  have hp2 := vk.pprime.two_le
  have hq2 := vk.qprime.two_le
  have hn2 : 2 ≤ pk.n := by
    rw [vk.hn]
    calc 2 ≤ 2 * 2 := by omega
    _ ≤ p * q := Nat.mul_le_mul hp2 hq2
  have hns : pk.nsquare = pk.n ^ 2 := by rw [vk.hns]; ring
  -- the decrypted exponent residue
  have hstep1 : c ^ pk.lam % pk.nsquare
      = (pk.g ^ M * R ^ pk.n) ^ pk.lam % pk.nsquare := by
    rw [Nat.pow_mod, hc, ← Nat.pow_mod]
  have hstep2 : (pk.g ^ M * R ^ pk.n) ^ pk.lam
      = pk.g ^ (M * pk.lam) * R ^ (pk.n * pk.lam) := by
    rw [mul_pow, ← pow_mul, ← pow_mul]
  have hphi : Nat.totient (pk.n ^ 2) = pk.n * pk.lam := by
    rw [vk.hn, vk.hlam]
    exact totient_sq_of_pq vk.pprime vk.qprime vk.pq_ne
  have hstep3 : pk.g ^ (M * pk.lam) ≡ 1 + M * pk.lam * pk.n [MOD pk.n ^ 2] := by
    rw [vk.hg, Nat.add_comm pk.n 1]
    exact pow_one_add_sq pk.n (M * pk.lam)
  have hstep4 : R ^ (pk.n * pk.lam) ≡ 1 [MOD pk.n ^ 2] := by
    rw [← hphi]
    exact Nat.ModEq.pow_totient (hR.pow_right 2)
  have hcomb : c ^ pk.lam ≡ (1 + M * pk.lam * pk.n) * 1 [MOD pk.n ^ 2] := by
    have : c ^ pk.lam ≡ (pk.g ^ M * R ^ pk.n) ^ pk.lam [MOD pk.n ^ 2] := by
      unfold Nat.ModEq
      rw [← hns]
      exact hstep1
    rw [hstep2] at this
    exact this.trans (hstep3.mul hstep4)
  rw [mul_one] at hcomb
  set t := M * pk.lam % pk.n with ht
  have htlt : t < pk.n := Nat.mod_lt _ (by omega)
  have hcong : c ^ pk.lam ≡ 1 + t * pk.n [MOD pk.n ^ 2] := by
    refine hcomb.trans (Nat.ModEq.add_left 1 ?_)
    have hmm : M * pk.lam ≡ t [MOD pk.n] := (Nat.mod_modEq (M * pk.lam) pk.n).symm
    have := hmm.mul_right' (c := pk.n)
    rwa [show pk.n * pk.n = pk.n ^ 2 by ring] at this
  have hlt : 1 + t * pk.n < pk.n ^ 2 := by
    have hmul : t * pk.n + pk.n ≤ pk.n * pk.n := by
      have h := Nat.mul_le_mul_right pk.n (show t + 1 ≤ pk.n by omega)
      rwa [add_mul, one_mul] at h
    have hsq : pk.n ^ 2 = pk.n * pk.n := by ring
    rw [hsq]
    omega
  have hu : c ^ pk.lam % pk.nsquare = 1 + t * pk.n := by
    rw [hns]
    calc c ^ pk.lam % pk.n ^ 2 = (1 + t * pk.n) % pk.n ^ 2 := hcong
    _ = 1 + t * pk.n := Nat.mod_eq_of_lt hlt
  unfold paillier.Paillier.Decrypt paillier.ModExp
  rw [hu]
  rw [show 1 + t * pk.n - 1 = t * pk.n by omega]
  rw [Nat.mul_div_cancel t (by omega)]
  have hfin : t * pk.mu ≡ M [MOD pk.n] := by
    have h1 : t * pk.mu ≡ M * pk.lam * pk.mu [MOD pk.n] :=
      (Nat.mod_modEq (M * pk.lam) pk.n).mul_right pk.mu
    have h2 : pk.mu * pk.lam ≡ 1 [MOD pk.n] := by
      unfold Nat.ModEq
      rw [vk.hmu, Nat.mod_eq_of_lt (by omega : 1 < pk.n)]
    have h3 : M * pk.lam * pk.mu ≡ M * 1 [MOD pk.n] := by
      have : M * (pk.mu * pk.lam) ≡ M * 1 [MOD pk.n] := h2.mul_left M
      rwa [show M * (pk.mu * pk.lam) = M * pk.lam * pk.mu by ring] at this
    rw [mul_one] at h3
    exact h1.trans h3
  exact hfin

/-! ## The 96-bit unwrap: characterization and recovery -/

theorem signbits_eq (pt : Nat) :
    (pt &&& 0xffffffff8000000000000000) >>> 63 = pt / 2 ^ 63 % 2 ^ 33 := by
  rw [show (0xffffffff8000000000000000 : Nat) = (2 ^ 33 - 1) <<< 63 by
    rw [Nat.shiftLeft_eq]; norm_num]
  rw [and_shiftLeft_shiftRight, Nat.and_pow_two_sub_one_eq_mod,
    Nat.shiftRight_eq_div_pow]

theorem Unwrap96_eq (pt : Nat) :
    paillier.Unwrap96bitTo64bit pt =
      if ¬(pt / 2 ^ 63 % 2 ^ 33 = 0 ∨ pt / 2 ^ 63 % 2 ^ 33 = 2 ^ 33 - 1) then
        .error "Overflow detected in decrypted int"
      else if pt / 2 ^ 63 % 2 ^ 33 = 0 then .ok ((pt % 2 ^ 63 : Nat) : Int)
      else .ok (-((((pt ^^^ (2 ^ 96 - 1)) + 1) % 2 ^ 64 : Nat) : Int)) := by
  unfold paillier.Unwrap96bitTo64bit
  simp only [paillier.ONES_63, paillier.ONES_33, paillier.ONES_96,
    paillier.ONES_64, signbits_eq, Nat.and_pow_two_sub_one_eq_mod]

theorem div_mod_63_33 (pt : Nat) :
    pt / 2 ^ 63 % 2 ^ 33 = pt % 2 ^ 96 / 2 ^ 63 := by
  rw [show (2 : Nat) ^ 96 = 2 ^ 63 * 2 ^ 33 by norm_num,
    Nat.mod_mul_right_div_self]

theorem unwrap_recover (pt : Nat) (s : Int)
    (hs1 : paillier.MIN_INT64 ≤ s) (hs2 : s ≤ paillier.MAX_INT64)
    (hpt : (pt : Int) % 2 ^ 96 = s % 2 ^ 96) :
    paillier.Unwrap96bitTo64bit pt = .ok s := by
  have hMIN : paillier.MIN_INT64 = -(2 ^ 63) := rfl
  have hMAX : paillier.MAX_INT64 = 2 ^ 63 - 1 := rfl
  rw [hMIN] at hs1
  rw [hMAX] at hs2
  rw [Unwrap96_eq, div_mod_63_33]
  have hloInt : ((pt % 2 ^ 96 : Nat) : Int) = s % 2 ^ 96 := by
    push_cast
    exact hpt
  by_cases hs0 : 0 ≤ s
  · have hsb : pt % 2 ^ 96 / 2 ^ 63 = 0 := by omega
    rw [hsb, if_neg (by norm_num), if_pos rfl]
    congr 1
    omega
  · have hsb : pt % 2 ^ 96 / 2 ^ 63 = 2 ^ 33 - 1 := by omega
    rw [hsb, if_neg (by norm_num), if_neg (by norm_num)]
    rw [xor_ones_mask 96 pt]
    rw [show 2 ^ 96 * (pt / 2 ^ 96) + (2 ^ 96 - 1 - pt % 2 ^ 96) + 1
        = 2 ^ 64 * (2 ^ 32 * (pt / 2 ^ 96)) + (2 ^ 96 - pt % 2 ^ 96) by
      have hm : pt % 2 ^ 96 < 2 ^ 96 := Nat.mod_lt _ (by norm_num)
      omega]
    rw [Nat.mul_add_mod]
    congr 1
    omega

theorem unwrap_overflow (pt : Nat) (s : Int)
    (hrange : s < paillier.MIN_INT64 ∨ paillier.MAX_INT64 < s)
    (hband1 : -(2 ^ 95) ≤ s) (hband2 : s < 2 ^ 95)
    (hpt : (pt : Int) % 2 ^ 96 = s % 2 ^ 96) :
    paillier.Unwrap96bitTo64bit pt
      = .error "Overflow detected in decrypted int" := by
  have hMIN : paillier.MIN_INT64 = -(2 ^ 63) := rfl
  have hMAX : paillier.MAX_INT64 = 2 ^ 63 - 1 := rfl
  rw [hMIN, hMAX] at hrange
  rw [Unwrap96_eq, div_mod_63_33]
  have hloInt : ((pt % 2 ^ 96 : Nat) : Int) = s % 2 ^ 96 := by
    push_cast
    exact hpt
  rw [if_pos (by omega)]

theorem ext_int (m : Int) (h1 : paillier.MIN_INT64 ≤ m)
    (h2 : m ≤ paillier.MAX_INT64) :
    ((paillier.Extend64bitTo96bitTwosComplement m : Nat) : Int) = m % 2 ^ 96 ∧
    paillier.Extend64bitTo96bitTwosComplement m < 2 ^ 96 := by
  have hMIN : paillier.MIN_INT64 = -(2 ^ 63) := rfl
  have hMAX : paillier.MAX_INT64 = 2 ^ 63 - 1 := rfl
  rw [hMIN] at h1
  rw [hMAX] at h2
  unfold paillier.Extend64bitTo96bitTwosComplement
  by_cases h0 : 0 ≤ m
  · rw [if_pos h0]
    constructor <;> omega
  · rw [if_neg h0]
    rw [show paillier.ONES_96 = 2 ^ 96 - 1 from rfl,
      xor_ones_of_lt 96 m.natAbs (by omega)]
    constructor <;> omega

theorem sum_ext_mod (l : List (Int × Nat))
    (h : ∀ x ∈ l, paillier.MIN_INT64 ≤ x.1 ∧ x.1 ≤ paillier.MAX_INT64) :
    (((l.map (fun x => paillier.Extend64bitTo96bitTwosComplement x.1)).sum : Nat) : Int) % 2 ^ 96
      = (l.map Prod.fst).sum % 2 ^ 96 := by
  induction l with
  | nil => simp
  | cons a t ih =>
    have ha := h a (by simp)
    have hx := ext_int a.1 ha.1 ha.2
    have ht := ih (fun x hx => h x (by simp [hx]))
    simp only [List.map_cons, List.sum_cons]
    push_cast
    push_cast at ht
    omega

theorem sum_bounds (l : List (Int × Nat))
    (h : ∀ x ∈ l, paillier.MIN_INT64 ≤ x.1 ∧ x.1 ≤ paillier.MAX_INT64) :
    -((l.length : Int) * 2 ^ 63) ≤ (l.map Prod.fst).sum
      ∧ (l.map Prod.fst).sum ≤ (l.length : Int) * (2 ^ 63 - 1) := by
  induction l with
  | nil => simp
  | cons a t ih =>
    have ha := h a (by simp)
    have hMIN : paillier.MIN_INT64 = -(2 ^ 63) := rfl
    have hMAX : paillier.MAX_INT64 = 2 ^ 63 - 1 := rfl
    rw [hMIN, hMAX] at ha
    have ht := ih (fun x hx => h x (by simp [hx]))
    simp only [List.map_cons, List.sum_cons, List.length_cons]
    push_cast
    constructor <;> omega

/-- C3: `EncryptInt64` sign-extends its argument to the 96-bit twos-complement
representation before Paillier encryption, and decrypting the homomorphic sum
of at most `2^32` encrypted int64 values returns the exact integer sum when it
lies in `[-2^63, 2^63)` and raises OverflowError otherwise (key valid, the
random values coprime to `n`, and the 96-bit payload sum below `n`, as holds
for every real 1024-bit key). -/
theorem DecryptInt64_sum (pk : paillier.Paillier) {p q : Nat}
    (vk : pk.ValidKey p q) (l : List (Int × Nat))
    (hne : l ≠ []) (hlen : l.length ≤ 2 ^ 32)
    (hvals : ∀ x ∈ l, paillier.MIN_INT64 ≤ x.1 ∧ x.1 ≤ paillier.MAX_INT64)
    (hcop : ∀ x ∈ l, (x.2).Coprime pk.n)
    (hbig : (l.map
      (fun x => paillier.Extend64bitTo96bitTwosComplement x.1)).sum < pk.n) :
    l.mapM (fun x => pk.EncryptInt64 x.1 x.2)
      = .ok (l.map (fun x =>
          pk.Encrypt (paillier.Extend64bitTo96bitTwosComplement x.1) x.2))
    ∧ (∀ x ∈ l, ((paillier.Extend64bitTo96bitTwosComplement x.1 : Nat) : Int)
        = x.1 % 2 ^ 96)
    ∧ pk.DecryptInt64 (pk.SumCiphers (l.map (fun x =>
        pk.Encrypt (paillier.Extend64bitTo96bitTwosComplement x.1) x.2)))
      = (if paillier.MIN_INT64 ≤ (l.map Prod.fst).sum
            ∧ (l.map Prod.fst).sum ≤ paillier.MAX_INT64
         then .ok ((l.map Prod.fst).sum)
         else .error "Overflow detected in decrypted int") := by
  refine ⟨?_, ?_, ?_⟩
  · apply mapM_ok
    intro x hx
    have hv := hvals x hx
    unfold paillier.Paillier.EncryptInt64
    rw [if_neg (by
      intro hcontra
      rcases hcontra with hlt | hgt
      · exact absurd hv.1 (by omega)
      · exact absurd hv.2 (by omega))]
  · intro x hx
    exact (ext_int x.1 (hvals x hx).1 (hvals x hx).2).1
  · set pairs : List (Nat × Nat) :=
      l.map (fun x => (paillier.Extend64bitTo96bitTwosComplement x.1, x.2))
      with hpairs
    have hmapeq : l.map (fun x =>
        pk.Encrypt (paillier.Extend64bitTo96bitTwosComplement x.1) x.2)
        = pairs.map (fun y => pk.Encrypt y.1 y.2) := by
      rw [hpairs, List.map_map]
      rfl
    have hfst : pairs.map Prod.fst
        = l.map (fun x => paillier.Extend64bitTo96bitTwosComplement x.1) := by
      rw [hpairs, List.map_map]
      rfl
    have hsnd : pairs.map Prod.snd = l.map Prod.snd := by
      rw [hpairs, List.map_map]
      rfl
    obtain ⟨hd, tl, hl⟩ := List.exists_cons_of_ne_nil
      (show pairs ≠ [] by
        rw [hpairs]
        intro hcon
        exact hne (List.map_eq_nil_iff.mp hcon))
    have hform := sumCiphers_form pk hd tl
    rw [← hl] at hform
    set M : Nat := (pairs.map Prod.fst).sum with hM
    set R : Nat := (pairs.map Prod.snd).prod with hR
    have hcop2 : R.Coprime pk.n := by
      rw [hR, hsnd]
      apply coprime_list_prod
      intro x hx
      rw [List.mem_map] at hx
      obtain ⟨y, hy, rfl⟩ := hx
      exact hcop y hy
    have hdec : pk.Decrypt (pk.SumCiphers (pairs.map
        (fun y => pk.Encrypt y.1 y.2))) = M % pk.n :=
      decrypt_form pk vk M R hcop2 _ hform
    have hMlt : M < pk.n := by
      rw [hM, hfst]
      exact hbig
    have hMn : M % pk.n = M := Nat.mod_eq_of_lt hMlt
    have hS := sum_ext_mod l hvals
    have hSB := sum_bounds l hvals
    have hptInt : ((M : Nat) : Int) % 2 ^ 96
        = (l.map Prod.fst).sum % 2 ^ 96 := by
      rw [hM, hfst]
      exact hS
    unfold paillier.Paillier.DecryptInt64
    rw [hmapeq, hdec, hMn]
    by_cases hin : paillier.MIN_INT64 ≤ (l.map Prod.fst).sum
        ∧ (l.map Prod.fst).sum ≤ paillier.MAX_INT64
    · rw [if_pos hin]
      exact unwrap_recover M _ hin.1 hin.2 hptInt
    · rw [if_neg hin]
      have hMIN : paillier.MIN_INT64 = -(2 ^ 63) := rfl
      have hMAX : paillier.MAX_INT64 = 2 ^ 63 - 1 := rfl
      apply unwrap_overflow M _ _ _ _ hptInt
      · rw [hMIN, hMAX] at hin ⊢
        omega
      · have : ((l.length : Int)) ≤ 2 ^ 32 := by exact_mod_cast hlen
        omega
      · have : ((l.length : Int)) ≤ 2 ^ 32 := by exact_mod_cast hlen
        omega

/-- Witness for `DecryptInt64_sum` on the toy key `p = 5`, `q = 7` and the
batch `[3, 1]` with randomness `[2, 3]`. -/
theorem DecryptInt64_sum_witness :
    ([((3 : Int), (2 : Nat)), (1, 3)].mapM (fun x =>
        (⟨35, 1225, 36, 24, 19⟩ : paillier.Paillier).EncryptInt64 x.1 x.2))
      = .ok ([((3 : Int), (2 : Nat)), (1, 3)].map (fun x =>
          (⟨35, 1225, 36, 24, 19⟩ : paillier.Paillier).Encrypt
            (paillier.Extend64bitTo96bitTwosComplement x.1) x.2))
    ∧ (⟨35, 1225, 36, 24, 19⟩ : paillier.Paillier).DecryptInt64
        ((⟨35, 1225, 36, 24, 19⟩ : paillier.Paillier).SumCiphers
          ([((3 : Int), (2 : Nat)), (1, 3)].map (fun x =>
            (⟨35, 1225, 36, 24, 19⟩ : paillier.Paillier).Encrypt
              (paillier.Extend64bitTo96bitTwosComplement x.1) x.2)))
      = (if paillier.MIN_INT64 ≤ ([((3 : Int), (2 : Nat)), (1, 3)].map Prod.fst).sum
            ∧ ([((3 : Int), (2 : Nat)), (1, 3)].map Prod.fst).sum ≤ paillier.MAX_INT64
         then .ok (([((3 : Int), (2 : Nat)), (1, 3)].map Prod.fst).sum)
         else .error "Overflow detected in decrypted int") :=
  have h := DecryptInt64_sum (⟨35, 1225, 36, 24, 19⟩ : paillier.Paillier)
    (p := 5) (q := 7)
    ⟨by norm_num, by norm_num, by omega, rfl, rfl, rfl, rfl, by rfl⟩
    [((3 : Int), (2 : Nat)), (1, 3)]
    (by simp) (by norm_num) (by decide) (by decide) (by decide)
  ⟨h.1, h.2.2⟩

/-! ## Packing and unpacking of multiple int64 values -/

theorem packgo_eq (l : List Int)
    (hvals : ∀ x ∈ l, paillier.MIN_INT64 ≤ x ∧ x ≤ paillier.MAX_INT64) :
    ∀ acc c, 1 ≤ c →
    paillier.packInt64sGo acc c l
      = .ok (l.foldl (fun a e =>
          a * 2 ^ 128 + paillier.Extend64bitTo96bitTwosComplement e) acc) := by
  induction l with
  | nil =>
    intro acc c _
    rfl
  | cons e t ih =>
    intro acc c hc
    have hv := hvals e (by simp)
    show (if e < paillier.MIN_INT64 ∨ paillier.MAX_INT64 < e then _ else _) = _
    rw [if_neg (by
      intro hcontra
      rcases hcontra with h' | h'
      · exact absurd hv.1 (by omega)
      · exact absurd hv.2 (by omega))]
    rw [if_pos (show 0 < c by omega)]
    rw [ih (fun x hx => hvals x (by simp [hx])) _ (c + 1) (by omega)]
    have hsh : acc <<< paillier.PACKING_BIT_SIZE = acc * 2 ^ 128 := by
      rw [Nat.shiftLeft_eq]
      norm_num [paillier.PACKING_BIT_SIZE]
    rw [hsh, List.foldl_cons]

theorem pack_eq (e : Int) (t : List Int)
    (hvals : ∀ x ∈ (e :: t), paillier.MIN_INT64 ≤ x ∧ x ≤ paillier.MAX_INT64) :
    paillier.packInt64sGo 0 0 (e :: t) = .ok (paillier.packValue (e :: t)) := by
  have hv := hvals e (by simp)
  show (if e < paillier.MIN_INT64 ∨ paillier.MAX_INT64 < e then _ else _) = _
  rw [if_neg (by
    intro hcontra
    rcases hcontra with h' | h'
    · exact absurd hv.1 (by omega)
    · exact absurd hv.2 (by omega))]
  rw [if_neg (by omega)]
  rw [packgo_eq t (fun x hx => hvals x (by simp [hx])) _ 1 (by omega)]
  rfl

theorem packfold_lt : ∀ (l : List Int) (acc k : Nat),
    (∀ x ∈ l, paillier.MIN_INT64 ≤ x ∧ x ≤ paillier.MAX_INT64) →
    acc < 2 ^ k →
    l.foldl (fun a e =>
        a * 2 ^ 128 + paillier.Extend64bitTo96bitTwosComplement e) acc
      < 2 ^ (k + 128 * l.length) := by
  intro l
  induction l with
  | nil =>
    intro acc k _ hacc
    simpa using hacc
  | cons e t ih =>
    intro acc k hv hacc
    simp only [List.foldl_cons, List.length_cons]
    have hvv := hv e (by simp)
    have hext := (ext_int e hvv.1 hvv.2).2
    have hstep : acc * 2 ^ 128 + paillier.Extend64bitTo96bitTwosComplement e
        < 2 ^ (k + 128) := by
      have h1 : (acc + 1) * 2 ^ 128 ≤ 2 ^ k * 2 ^ 128 :=
        Nat.mul_le_mul_right _ (by omega)
      rw [add_mul, one_mul] at h1
      rw [pow_add]
      omega
    have hrec := ih (acc * 2 ^ 128 + paillier.Extend64bitTo96bitTwosComplement e)
      (k + 128) (fun x hx => hv x (by simp [hx])) hstep
    rw [show k + 128 + 128 * t.length = k + 128 * (t.length + 1) by ring] at hrec
    exact hrec

theorem packValue_lt (l : List Int)
    (hvals : ∀ x ∈ l, paillier.MIN_INT64 ≤ x ∧ x ≤ paillier.MAX_INT64) :
    paillier.packValue l < 2 ^ (128 * l.length) := by
  have h := packfold_lt l 0 0 hvals (by norm_num)
  simpa using h

theorem unpack_pack_go : ∀ (fuel : Nat) (l : List Int) (acc : List Int),
    (∀ x ∈ l, paillier.MIN_INT64 ≤ x ∧ x ≤ paillier.MAX_INT64) →
    l.length ≤ fuel →
    paillier.unpackInt64sGo (paillier.packValue l) fuel acc
      = .ok (List.replicate (fuel - l.length) 0 ++ l ++ acc) := by
  intro fuel
  induction fuel with
  | zero =>
    intro l acc _ hlen
    have hl : l = [] := List.length_eq_zero.mp (by omega)
    subst hl
    rfl
  | succ fuel ih =>
    intro l acc hvals hlen
    rcases List.eq_nil_or_concat l with rfl | ⟨l', e, hl⟩
    · show paillier.unpackInt64sGo (paillier.packValue []) (fuel + 1) acc = _
      have h0 : paillier.packValue [] = 0 := rfl
      rw [h0]
      show (do
        let v ← paillier.Unwrap96bitTo64bit (0 &&& paillier.ONES_96)
        paillier.unpackInt64sGo (0 >>> paillier.PACKING_BIT_SIZE) fuel
          (v :: acc)) = _
      have hz : (0 : Nat) &&& paillier.ONES_96 = 0 := by
        rw [show paillier.ONES_96 = 2 ^ 96 - 1 from rfl,
          Nat.and_pow_two_sub_one_eq_mod]
      have hu : paillier.Unwrap96bitTo64bit 0 = .ok 0 :=
        unwrap_recover 0 0 (by decide) (by decide) (by norm_num)
      rw [hz, hu, except_bind_ok']
      have h00 : (0 : Nat) >>> paillier.PACKING_BIT_SIZE = 0 := by
        rw [Nat.shiftRight_eq_div_pow]
        simp
      rw [h00, show (0 : Nat) = paillier.packValue [] from rfl]
      rw [ih [] ((0 : Int) :: acc) (by simp) (by simp)]
      simp [List.replicate_succ']
    · rw [List.concat_eq_append] at hl
      subst hl
      have hv := hvals e (by simp)
      have hext := ext_int e hv.1 hv.2
      have hsplit : paillier.packValue (l' ++ [e])
          = paillier.packValue l' * 2 ^ 128
            + paillier.Extend64bitTo96bitTwosComplement e := by
        unfold paillier.packValue
        rw [List.foldl_append]
        rfl
      show (do
        let v ← paillier.Unwrap96bitTo64bit
          (paillier.packValue (l' ++ [e]) &&& paillier.ONES_96)
        paillier.unpackInt64sGo
          (paillier.packValue (l' ++ [e]) >>> paillier.PACKING_BIT_SIZE) fuel
          (v :: acc)) = _
      have hlow : paillier.packValue (l' ++ [e]) &&& paillier.ONES_96
          = paillier.Extend64bitTo96bitTwosComplement e := by
        rw [hsplit, show paillier.ONES_96 = 2 ^ 96 - 1 from rfl,
          Nat.and_pow_two_sub_one_eq_mod]
        rw [show paillier.packValue l' * 2 ^ 128
          = 2 ^ 96 * (paillier.packValue l' * 2 ^ 32) by ring]
        rw [Nat.mul_add_mod]
        exact Nat.mod_eq_of_lt hext.2
      have hhigh : paillier.packValue (l' ++ [e]) >>> paillier.PACKING_BIT_SIZE
          = paillier.packValue l' := by
        rw [hsplit, Nat.shiftRight_eq_div_pow]
        have h128 : (2 : Nat) ^ paillier.PACKING_BIT_SIZE = 2 ^ 128 := by
          norm_num [paillier.PACKING_BIT_SIZE]
        rw [h128]
        have := hext.2
        omega
      have hu : paillier.Unwrap96bitTo64bit
          (paillier.Extend64bitTo96bitTwosComplement e) = .ok e := by
        apply unwrap_recover _ e hv.1 hv.2
        rw [hext.1]
        omega
      rw [hlow, hu, except_bind_ok', hhigh]
      rw [ih l' (e :: acc) (fun x hx => hvals x (by simp [hx]))
        (by simp at hlen ⊢; omega)]
      rw [List.length_append, List.length_singleton]
      rw [show fuel + 1 - (l'.length + 1) = fuel - l'.length by omega]
      simp [List.append_assoc]

/-- C9: `EncryptMultipleInt64s` packs up to 7 int64 values into one payload
(head in the most significant slot) and rejects longer lists;
`DecryptMultipleInt64s` returns exactly 7 values: `7 - len(l)` zeros followed
by the original values in order. -/
theorem multipleInt64s_roundtrip (pk : paillier.Paillier) {p q : Nat}
    (vk : pk.ValidKey p q) (l : List Int) (r : Nat)
    (hr : r.Coprime pk.n) (hlen1 : 1 ≤ l.length) (hlen7 : l.length ≤ 7)
    (hvals : ∀ x ∈ l, paillier.MIN_INT64 ≤ x ∧ x ≤ paillier.MAX_INT64)
    (hbig : paillier.packValue l < pk.n) :
    pk.EncryptMultipleInt64s l r = .ok (pk.Encrypt (paillier.packValue l) r)
    ∧ pk.DecryptMultipleInt64s (pk.Encrypt (paillier.packValue l) r)
        = .ok (List.replicate (7 - l.length) 0 ++ l)
    ∧ ∀ l' : List Int, 7 < l'.length →
        pk.EncryptMultipleInt64s l' r
          = .error "The number of entries in the input list cannot be more than 7" := by
  refine ⟨?_, ?_, ?_⟩
  · unfold paillier.Paillier.EncryptMultipleInt64s
    rw [if_neg (by
      rw [show paillier.PACKING_LIMIT = 7 from rfl]
      omega)]
    obtain ⟨e, t, rfl⟩ := List.exists_cons_of_ne_nil
      (show l ≠ [] by
        intro hcon
        rw [hcon] at hlen1
        simp at hlen1)
    rw [pack_eq e t hvals]
    rfl
  · unfold paillier.Paillier.DecryptMultipleInt64s
    have hdec : pk.Decrypt (pk.Encrypt (paillier.packValue l) r)
        = paillier.packValue l % pk.n :=
      decrypt_form pk vk (paillier.packValue l) r hr _
        (encrypt_mod pk (paillier.packValue l) r)
    rw [hdec, Nat.mod_eq_of_lt hbig]
    rw [show paillier.PACKING_LIMIT = 7 from rfl]
    rw [unpack_pack_go 7 l [] hvals hlen7]
    rw [List.append_nil]
  · intro l' hl'
    unfold paillier.Paillier.EncryptMultipleInt64s
    rw [if_pos (by
      rw [show paillier.PACKING_LIMIT = 7 from rfl]
      omega)]

/-- Witness for `multipleInt64s_roundtrip` on the toy key `p = 5`, `q = 7`,
the singleton batch `[3]` and randomness `2`; the over-long case is
instantiated with an 8-element list. -/
theorem multipleInt64s_roundtrip_witness :
    (⟨35, 1225, 36, 24, 19⟩ : paillier.Paillier).EncryptMultipleInt64s [3] 2
      = .ok ((⟨35, 1225, 36, 24, 19⟩ : paillier.Paillier).Encrypt
          (paillier.packValue [3]) 2)
    ∧ (⟨35, 1225, 36, 24, 19⟩ : paillier.Paillier).DecryptMultipleInt64s
        ((⟨35, 1225, 36, 24, 19⟩ : paillier.Paillier).Encrypt
          (paillier.packValue [3]) 2)
      = .ok (List.replicate (7 - ([3] : List Int).length) 0 ++ [3])
    ∧ (⟨35, 1225, 36, 24, 19⟩ : paillier.Paillier).EncryptMultipleInt64s
        (List.replicate 8 0) 2
      = .error "The number of entries in the input list cannot be more than 7" :=
  have h := multipleInt64s_roundtrip (⟨35, 1225, 36, 24, 19⟩ : paillier.Paillier)
    (p := 5) (q := 7)
    ⟨by norm_num, by norm_num, by omega, rfl, rfl, rfl, rfl, by rfl⟩
    [3] 2 (by decide) (by norm_num) (by norm_num) (by decide) (by decide)
  ⟨h.1, h.2.1, h.2.2 (List.replicate 8 0) (by norm_num)⟩

/-! ## Float payload lemmas -/

theorem or_two_pow (a k : Nat) (h : a < 2 ^ k) : a ||| 2 ^ k = 2 ^ k + a := by
  apply Nat.eq_of_testBit_eq
  intro i
  rw [Nat.testBit_or]
  rw [show 2 ^ k + a = 2 ^ k * 1 + a by ring]
  rw [Nat.testBit_mul_pow_two_add 1 h]
  by_cases hik : i < k
  · rw [if_pos hik, Nat.testBit_two_pow]
    simp [show k ≠ i by omega]
  · rw [if_neg hik]
    have ha : a.testBit i = false :=
      Nat.testBit_lt_two_pow
        (lt_of_lt_of_le h (Nat.pow_le_pow_right (by omega) (by omega)))
    rw [ha, Nat.testBit_two_pow, show (1 : Nat) = 2 ^ 0 by rfl,
      Nat.testBit_two_pow]
    simp only [Bool.false_or]
    exact decide_eq_decide.mpr (by omega)

theorem or_shift_add (x y k : Nat) (h : y < 2 ^ k) :
    (x <<< k) ||| y = x * 2 ^ k + y := by
  apply Nat.eq_of_testBit_eq
  intro i
  rw [Nat.testBit_or, Nat.testBit_shiftLeft]
  rw [show x * 2 ^ k + y = 2 ^ k * x + y by ring]
  rw [Nat.testBit_mul_pow_two_add x h]
  by_cases hik : i < k
  · rw [if_pos hik]
    simp [show ¬(i ≥ k) by omega]
  · rw [if_neg hik]
    have hy : y.testBit i = false :=
      Nat.testBit_lt_two_pow
        (lt_of_lt_of_le h (Nat.pow_le_pow_right (by omega) (by omega)))
    simp [show i ≥ k by omega, hy]

theorem mantField_eq (b : Nat) : paillier.mantField b = 2 ^ 52 + b % 2 ^ 52 := by
  unfold paillier.mantField
  rw [show (0xfffffffffffff : Nat) = 2 ^ 52 - 1 by norm_num,
    Nat.and_pow_two_sub_one_eq_mod,
    show (0x10000000000000 : Nat) = 2 ^ 52 by norm_num,
    or_two_pow _ _ (Nat.mod_lt _ (by norm_num))]

theorem expField_eq (b : Nat) : paillier.expField b = b / 2 ^ 52 % 2 ^ 11 := by
  unfold paillier.expField
  rw [Nat.shiftRight_eq_div_pow,
    show (0x7ff : Nat) = 2 ^ 11 - 1 by norm_num,
    Nat.and_pow_two_sub_one_eq_mod]

theorem signField_eq (b : Nat) : paillier.signField b = b / 2 ^ 63 := by
  unfold paillier.signField
  rw [Nat.shiftRight_eq_div_pow]

theorem size_eq_of_bounds (x k : Nat) (h1 : 2 ^ k ≤ x) (h2 : x < 2 ^ (k + 1)) :
    Nat.size x = k + 1 := by
  have hle : Nat.size x ≤ k + 1 := Nat.size_le.mpr h2
  have hlt : k < Nat.size x := Nat.lt_size.mpr h1
  omega

theorem size_mant_shift (m s : Nat) (h1 : 2 ^ 52 ≤ m) (h2 : m < 2 ^ 53) :
    Nat.size (m * 2 ^ s) = 53 + s := by
  have hlow : 2 ^ (52 + s) ≤ m * 2 ^ s := by
    rw [pow_add]
    exact Nat.mul_le_mul_right _ h1
  have hhigh : m * 2 ^ s < 2 ^ (52 + s + 1) := by
    rw [show 52 + s + 1 = 53 + s by ring, pow_add]
    exact Nat.mul_lt_mul_of_lt_of_le h2 (le_refl _) (by positivity)
  have := size_eq_of_bounds (m * 2 ^ s) (52 + s) hlow hhigh
  omega

theorem floatEncode_band (b : Nat) (hb : b < 2 ^ 64)
    (h1 : 634 ≤ paillier.expField b) (h2 : paillier.expField b ≤ 1412) :
    paillier.floatEncode b
      = .ok (if paillier.signField b = 1
          then 2 ^ 895 - paillier.mantField b * 2 ^ (paillier.expField b - 634)
          else paillier.mantField b * 2 ^ (paillier.expField b - 634)) := by
  have hmant := mantField_eq b
  unfold paillier.floatEncode
  rw [if_neg (fun hc => by
    have := hc.1
    unfold paillier.expField at this
    unfold paillier.expField at h2
    omega)]
  rw [if_neg (fun hc => by
    have := hc.1
    unfold paillier.expField at this
    unfold paillier.expField at h2
    omega)]
  rw [if_neg (fun hc => by
    have := hc.1
    unfold paillier.expField at this
    unfold paillier.expField at h2
    omega)]
  rw [if_neg (fun hc => by
    have := hc.2
    omega)]
  rw [if_neg (by
    rw [show (paillier.FLOAT_MANTISSA_ZERO : Int) = 389 from rfl,
      show (paillier.EXPONENT_BIAS : Int) = 1023 from rfl]
    omega)]
  rw [if_neg (by
    rw [show (paillier.FLOAT_MANTISSA_ZERO : Int) = 389 from rfl,
      show (paillier.EXPONENT_BIAS : Int) = 1023 from rfl,
      show (paillier.EXPLICIT_MANTISSA_BITS : Int) = 52 from rfl]
    omega)]
  have hsh : (paillier.mantField b <<< paillier.FLOAT_MANTISSA_LSB)
      >>> ((paillier.FLOAT_MANTISSA_ZERO : Int)
        - ((paillier.expField b : Int) - paillier.EXPONENT_BIAS)).toNat
      = paillier.mantField b * 2 ^ (paillier.expField b - 634) := by
    rw [show paillier.FLOAT_MANTISSA_LSB = 778 from rfl,
      show (paillier.FLOAT_MANTISSA_ZERO : Int) = 389 from rfl,
      show (paillier.EXPONENT_BIAS : Int) = 1023 from rfl]
    rw [show ((389 : Int) - ((paillier.expField b : Int) - 1023)).toNat
        = 1412 - paillier.expField b by omega]
    rw [Nat.shiftLeft_eq, Nat.shiftRight_eq_div_pow]
    rw [show (2 : Nat) ^ 778
        = 2 ^ (paillier.expField b - 634) * 2 ^ (1412 - paillier.expField b) by
      rw [← pow_add]
      congr 1
      omega]
    rw [← Nat.mul_assoc]
    exact Nat.mul_div_cancel _ (by positivity)
  rw [hsh]
  dsimp only
  have hlt : paillier.mantField b * 2 ^ (paillier.expField b - 634) < 2 ^ 831 := by
    have hm : paillier.mantField b < 2 ^ 53 := by
      rw [hmant]
      have := Nat.mod_lt b (show 0 < 2 ^ 52 by norm_num)
      omega
    calc paillier.mantField b * 2 ^ (paillier.expField b - 634)
        < 2 ^ 53 * 2 ^ (paillier.expField b - 634) :=
          Nat.mul_lt_mul_of_lt_of_le hm (le_refl _) (by positivity)
    _ ≤ 2 ^ 53 * 2 ^ 778 := by
        apply Nat.mul_le_mul_left
        apply Nat.pow_le_pow_right (by omega)
        omega
    _ = 2 ^ 831 := by norm_num [← pow_add]
  by_cases hsign : paillier.signField b = 1
  · rw [if_pos hsign, if_pos hsign]
    congr 1
    rw [show paillier.ONES_CARRYOVER_LSB = 2 ^ 895 - 1 from rfl]
    rw [xor_ones_of_lt 895 _ (by
      calc paillier.mantField b * 2 ^ (paillier.expField b - 634) < 2 ^ 831 := hlt
      _ < 2 ^ 895 := by norm_num)]
    have hpos : 0 < paillier.mantField b * 2 ^ (paillier.expField b - 634) := by
      rw [hmant]
      positivity
    omega
  · rw [if_neg hsign, if_neg hsign]

theorem floatDecode_posS (S c : Nat) (hc : c < 2 ^ 64)
    (hsign : paillier.signField c = 0)
    (h1 : 634 ≤ paillier.expField c) (h2 : paillier.expField c ≤ 1412)
    (hmae : S % 2 ^ 831
      = paillier.mantField c * 2 ^ (paillier.expField c - 634))
    (hf1 : S / 2 ^ 831 % 2 ^ 32 = 0)
    (hf2 : S / 2 ^ 863 % 2 ^ 32 = 0)
    (hf3 : S / 2 ^ 927 % 2 ^ 32 = 0)
    (hf4 : S / 2 ^ 959 % 2 ^ 32 = 0)
    (hf5 : S / 2 ^ 991 % 2 ^ 32 = 0) :
    paillier.floatDecode S = .ok c := by
  have hmant := mantField_eq c
  have hmantlt : paillier.mantField c < 2 ^ 53 := by
    have := Nat.mod_lt c (show 0 < 2 ^ 52 by norm_num)
    omega
  have hmantge : 2 ^ 52 ≤ paillier.mantField c := by omega
  unfold paillier.floatDecode
  simp only [Nat.shiftRight_eq_div_pow,
    show (0xffffffff : Nat) = 2 ^ 32 - 1 by norm_num,
    show paillier.ONES_FLOAT_SIGN_LOW_LSB = 2 ^ 831 - 1 from rfl,
    Nat.and_pow_two_sub_one_eq_mod,
    show paillier.MANTISSA_BITS = 53 from rfl,
    show paillier.EXPLICIT_MANTISSA_BITS = 52 from rfl,
    show paillier.FLOAT_MANTISSA_ZERO = 389 from rfl,
    show paillier.EXPONENT_BIAS = 1023 from rfl,
    show paillier.FLOAT_SIGN_LOW_LSB = 831 from rfl,
    show (0xfffffffffffff : Nat) = 2 ^ 52 - 1 by norm_num]
  rw [hf1, hf2, hf3, hf4, hf5, hmae]
  rw [if_neg (by omega), if_neg (by omega), if_neg (by omega),
    if_neg (by omega), if_neg (by omega), if_neg (by omega),
    if_pos ⟨rfl, rfl⟩]
  rw [if_neg (by
    intro h0
    rcases Nat.mul_eq_zero.mp h0 with h' | h'
    · omega
    · exact absurd h' (by positivity))]
  rw [size_mant_shift _ _ hmantge hmantlt]
  rw [if_pos (by omega)]
  rw [show 53 + (paillier.expField c - 634) - 53 = paillier.expField c - 634
    by omega]
  rw [Nat.mul_div_cancel _ (by positivity :
    (0 : Nat) < 2 ^ (paillier.expField c - 634))]
  rw [show paillier.mantField c % 2 ^ 52 = c % 2 ^ 52 by omega]
  rw [Except.ok.injEq]
  rw [or_shift_add _ _ 52 (Nat.mod_lt _ (by norm_num))]
  rw [expField_eq] at h1 h2 ⊢
  rw [signField_eq] at hsign
  omega

theorem mantShift_lt (c : Nat) (h2 : paillier.expField c ≤ 1412) :
    paillier.mantField c * 2 ^ (paillier.expField c - 634) < 2 ^ 831 := by
  have hm : paillier.mantField c < 2 ^ 53 := by
    have := mantField_eq c
    have := Nat.mod_lt c (show 0 < 2 ^ 52 by norm_num)
    omega
  calc paillier.mantField c * 2 ^ (paillier.expField c - 634)
      < 2 ^ 53 * 2 ^ (paillier.expField c - 634) :=
        Nat.mul_lt_mul_of_lt_of_le hm (le_refl _) (by positivity)
  _ ≤ 2 ^ 53 * 2 ^ 778 := by
      apply Nat.mul_le_mul_left
      apply Nat.pow_le_pow_right (by omega)
      omega
  _ = 2 ^ 831 := by norm_num [← pow_add]

theorem mantShift_pos (c : Nat) :
    0 < paillier.mantField c * 2 ^ (paillier.expField c - 634) := by
  have := mantField_eq c
  have h : 0 < paillier.mantField c := by omega
  positivity

theorem floatDecode_negS (S c : Nat) (hc : c < 2 ^ 64)
    (hsign : paillier.signField c = 1)
    (h1 : 634 ≤ paillier.expField c) (h2 : paillier.expField c ≤ 1412)
    (hnum : S % 2 ^ 895
      = 2 ^ 895 - paillier.mantField c * 2 ^ (paillier.expField c - 634))
    (hf1 : S / 2 ^ 831 % 2 ^ 32 = 2 ^ 32 - 1)
    (hf2 : S / 2 ^ 863 % 2 ^ 32 = 2 ^ 32 - 1)
    (hf3 : S / 2 ^ 927 % 2 ^ 32 = 0)
    (hf4 : S / 2 ^ 959 % 2 ^ 32 = 0)
    (hf5 : S / 2 ^ 991 % 2 ^ 32 = 0) :
    paillier.floatDecode S = .ok c := by
  have hmant := mantField_eq c
  have hmantlt : paillier.mantField c < 2 ^ 53 := by
    have := Nat.mod_lt c (show 0 < 2 ^ 52 by norm_num)
    omega
  have hmantge : 2 ^ 52 ≤ paillier.mantField c := by omega
  have hAlt := mantShift_lt c h2
  have hApos := mantShift_pos c
  unfold paillier.floatDecode
  simp only [Nat.shiftRight_eq_div_pow,
    show (0xffffffff : Nat) = 2 ^ 32 - 1 by norm_num,
    show paillier.ONES_FLOAT_SIGN_LOW_LSB = 2 ^ 831 - 1 from rfl,
    show paillier.ONES_CARRYOVER_LSB = 2 ^ 895 - 1 from rfl,
    show paillier.ONES_832 = 2 ^ 832 - 1 from rfl,
    Nat.and_pow_two_sub_one_eq_mod,
    show paillier.MANTISSA_BITS = 53 from rfl,
    show paillier.EXPLICIT_MANTISSA_BITS = 52 from rfl,
    show paillier.FLOAT_MANTISSA_ZERO = 389 from rfl,
    show paillier.EXPONENT_BIAS = 1023 from rfl,
    show paillier.FLOAT_SIGN_LOW_LSB = 831 from rfl,
    show (0xfffffffffffff : Nat) = 2 ^ 52 - 1 by norm_num]
  rw [hf1, hf2, hf3, hf4, hf5, hnum]
  rw [if_neg (by omega), if_neg (by omega), if_neg (by omega),
    if_neg (by omega), if_neg (by omega), if_neg (by omega),
    if_neg (by omega), if_pos ⟨rfl, rfl⟩]
  rw [xor_ones_of_lt 895 _ (by omega)]
  rw [show 2 ^ 895 - 1
      - (2 ^ 895 - paillier.mantField c * 2 ^ (paillier.expField c - 634)) + 1
      = paillier.mantField c * 2 ^ (paillier.expField c - 634) by omega]
  rw [Nat.mod_eq_of_lt (by omega :
    paillier.mantField c * 2 ^ (paillier.expField c - 634) < 2 ^ 832)]
  rw [if_neg (by omega)]
  rw [size_mant_shift _ _ hmantge hmantlt]
  rw [if_pos (by omega)]
  rw [show 53 + (paillier.expField c - 634) - 53 = paillier.expField c - 634
    by omega]
  rw [Nat.mul_div_cancel _ (by positivity :
    (0 : Nat) < 2 ^ (paillier.expField c - 634))]
  rw [show paillier.mantField c % 2 ^ 52 = c % 2 ^ 52 by omega]
  rw [Except.ok.injEq]
  rw [or_shift_add _ _ 52 (Nat.mod_lt _ (by norm_num))]
  rw [show (1 : Nat) <<< 63 = 2 ^ 63 by rw [Nat.shiftLeft_eq]; norm_num]
  rw [or_two_pow _ 63 (by
    have hE := expField_eq c
    omega)]
  rw [expField_eq] at h1 h2 ⊢
  rw [signField_eq] at hsign
  omega

/-! ## `number.py` round trip -/

theorem chunksB_join (k : Nat) (hk : k ≠ 0) (l : List Nat) :
    (number.chunksB k l).flatten = l := by
  have H : ∀ n (l : List Nat), l.length ≤ n →
      (number.chunksB k l).flatten = l := by
    intro n
    induction n with
    | zero =>
      intro l hl
      have hnil : l = [] := by
        cases l with
        | nil => rfl
        | cons a t => simp at hl
      subst hnil
      rw [number.chunksB]
      simp
    | succ n ih =>
      intro l hl
      rw [number.chunksB]
      by_cases h : l = [] ∨ k = 0
      · rw [dif_pos h]
        have hnil : l = [] := by
          rcases h with h | h
          · exact h
          · exact absurd h hk
        simp [hnil]
      · rw [dif_neg h]
        push_neg at h
        rw [List.flatten_cons,
          ih (l.drop k) (by
            have h1 : 0 < l.length := List.length_pos.mpr h.1
            have h2 : k ≠ 0 := h.2
            simp only [List.length_drop]
            omega)]
        exact List.take_append_drop k l
  exact H l.length l le_rfl

theorem chunksB_length_all (k : Nat) (hk : k ≠ 0) (l : List Nat)
    (hl : l.length % k = 0) :
    ∀ b ∈ number.chunksB k l, b.length = k := by
  have H : ∀ n (l : List Nat), l.length ≤ n → l.length % k = 0 →
      ∀ b ∈ number.chunksB k l, b.length = k := by
    intro n
    induction n with
    | zero =>
      intro l hl _ b hb
      have hnil : l = [] := by
        cases l with
        | nil => rfl
        | cons a t => simp at hl
      subst hnil
      rw [number.chunksB] at hb
      simp at hb
    | succ n ih =>
      intro l hl hmod b hb
      rw [number.chunksB] at hb
      by_cases h : l = [] ∨ k = 0
      · rw [dif_pos h] at hb
        simp at hb
      · rw [dif_neg h] at hb
        push_neg at h
        have h1 : 0 < l.length := List.length_pos.mpr h.1
        have hkl : k ≤ l.length := by
          rcases Nat.lt_or_ge l.length k with hlt | hge
          · rw [Nat.mod_eq_of_lt hlt] at hmod
            omega
          · exact hge
        rcases List.mem_cons.mp hb with hb | hb
        · subst hb
          simp only [List.length_take]
          omega
        · exact ih (l.drop k) (by simp only [List.length_drop]; omega)
            (by
              rcases Nat.dvd_of_mod_eq_zero hmod with ⟨m, hm⟩
              simp only [List.length_drop, hm]
              cases m with
              | zero => omega
              | succ m' =>
                have hsub : k * (m' + 1) - k = k * m' := by
                  rw [Nat.mul_add, Nat.mul_one]
                  exact Nat.add_sub_cancel _ _
                rw [hsub]
                exact Nat.mul_mod_right k m')
            b hb
  exact H l.length l le_rfl hl

theorem chunksB_flatten (k : Nat) (hk : k ≠ 0) (ls : List (List Nat))
    (h : ∀ b ∈ ls, b.length = k) :
    number.chunksB k ls.flatten = ls := by
  induction ls with
  | nil =>
    rw [number.chunksB]
    simp
  | cons b bs ih =>
    have hb : b.length = k := h b (by simp)
    have hbne : b ≠ [] := by
      intro hcon
      rw [hcon] at hb
      simp at hb
      omega
    rw [List.flatten_cons, number.chunksB,
      dif_neg (by
        push_neg
        constructor
        · simp [hbne]
        · exact hk)]
    rw [← hb, List.take_left, List.drop_left, hb]
    rw [ih (fun x hx => h x (by simp [hx]))]

theorem longComponents_lt (n : Nat) :
    ∀ w ∈ number.longComponents n, w < 2 ^ 32 := by
  have H : ∀ f n, n ≤ f → ∀ w ∈ number.longComponents n, w < 2 ^ 32 := by
    intro f
    induction f with
    | zero =>
      intro n hn w hw
      have : n = 0 := by omega
      subst this
      rw [number.longComponents] at hw
      simp at hw
    | succ f ih =>
      intro n hn w hw
      rw [number.longComponents] at hw
      by_cases h : n = 0
      · rw [dif_pos h] at hw
        simp at hw
      · rw [dif_neg h] at hw
        rcases List.mem_append.mp hw with hw | hw
        · refine ih (n >>> 32) ?_ w hw
          rw [Nat.shiftRight_eq_div_pow]
          have : n / 2 ^ 32 < n := Nat.div_lt_self (Nat.pos_of_ne_zero h)
            (by norm_num)
          omega
        · simp at hw
          subst hw
          rw [Nat.and_pow_two_sub_one_eq_mod n 32]
          exact Nat.mod_lt _ (by norm_num)
  exact H n n le_rfl

theorem longComponents_foldl (n : Nat) :
    (number.longComponents n).foldl (fun a w => a * 2 ^ 32 + w) 0 = n := by
  have H : ∀ f n, n ≤ f →
      (number.longComponents n).foldl (fun a w => a * 2 ^ 32 + w) 0 = n := by
    intro f
    induction f with
    | zero =>
      intro n hn
      have : n = 0 := by omega
      subst this
      rw [number.longComponents]
      simp
    | succ f ih =>
      intro n hn
      rw [number.longComponents]
      by_cases h : n = 0
      · rw [dif_pos h]
        simp [h]
      · rw [dif_neg h]
        rw [List.foldl_append]
        have hlt : n >>> 32 < n := by
          rw [Nat.shiftRight_eq_div_pow]
          exact Nat.div_lt_self (Nat.pos_of_ne_zero h) (by norm_num)
        rw [ih (n >>> 32) (by omega)]
        simp only [List.foldl_cons, List.foldl_nil]
        rw [Nat.shiftRight_eq_div_pow, Nat.and_pow_two_sub_one_eq_mod n 32]
        omega
  exact H n n le_rfl

theorem word4_be4 (w : Nat) (hw : w < 2 ^ 32) :
    number.word4 (number.be4 w) = w := by
  unfold number.word4 number.be4
  simp only [List.foldl_cons, List.foldl_nil,
    show (0xff : Nat) = 2 ^ 8 - 1 by norm_num,
    Nat.and_pow_two_sub_one_eq_mod, Nat.shiftRight_eq_div_pow]
  omega

theorem bytesToLong_longToBytes (n : Nat) :
    number.BytesToLong (number.LongToBytes n) = n := by
  by_cases h0 : n = 0
  · subst h0
    unfold number.LongToBytes number.BytesToLong
    rw [if_pos rfl]
    rw [show ((4 : Nat) - [0, 0, 0, 0].length % 4) % 4 = 0 by simp]
    rw [List.replicate_zero, List.nil_append]
    rw [number.chunksB, dif_neg (by simp)]
    rw [show List.drop 4 [0, 0, 0, 0] = ([] : List Nat) by simp]
    rw [number.chunksB, dif_pos (Or.inl rfl)]
    simp [number.word4]
  · unfold number.LongToBytes number.BytesToLong
    rw [if_neg h0]
    have hlen : (∀ b ∈ (number.longComponents n).map number.be4,
        b.length = 4) := by
      intro b hb
      rcases List.mem_map.mp hb with ⟨w, _, hw⟩
      subst hw
      rfl
    have hflen : ((number.longComponents n).map number.be4).flatten.length % 4
        = 0 := by
      have : ∀ (ls : List (List Nat)), (∀ b ∈ ls, b.length = 4) →
          ls.flatten.length % 4 = 0 := by
        intro ls
        induction ls with
        | nil => simp
        | cons b bs ih =>
          intro hall
          rw [List.flatten_cons, List.length_append, hall b (by simp)]
          have h2 := ih (fun x hx => hall x (by simp [hx]))
          omega
      exact this _ hlen
    rw [hflen, List.replicate_zero, List.nil_append]
    rw [chunksB_flatten 4 (by norm_num) _ hlen]
    rw [List.map_map]
    have hmap : (number.longComponents n).map (number.word4 ∘ number.be4)
        = number.longComponents n := by
      apply List.ext_getElem (by simp)
      intro i h1 h2
      simp only [List.getElem_map, Function.comp_apply]
      exact word4_be4 _ (longComponents_lt n _ (List.getElem_mem h2))
    rw [hmap]
    exact longComponents_foldl n

/-! ## AES-CBC round trip -/

theorem xorBlock_cancel : ∀ (iv p : List Nat), iv.length = p.length →
    ccrypto.xorBlock iv (ccrypto.xorBlock iv p) = p := by
  intro iv
  induction iv with
  | nil =>
    intro p hp
    cases p with
    | nil => rfl
    | cons b q => simp at hp
  | cons a t ih =>
    intro p hp
    cases p with
    | nil => simp at hp
    | cons b q =>
      simp only [ccrypto.xorBlock, List.zipWith_cons_cons]
      have hx : a ^^^ (a ^^^ b) = b := by
        rw [← Nat.xor_assoc, Nat.xor_self, Nat.zero_xor]
      rw [hx]
      have := ih q (by simpa using hp)
      simp only [ccrypto.xorBlock] at this
      rw [this]

theorem xorBlock_length (a b : List Nat) :
    (ccrypto.xorBlock a b).length = min a.length b.length := by
  simp [ccrypto.xorBlock]

theorem cbc_roundtrip (E D : List Nat → List Nat)
    (hED : ∀ x, x.length = 16 → D (E x) = x)
    (hElen : ∀ x, x.length = 16 → (E x).length = 16) :
    ∀ (ps : List (List Nat)) (iv : List Nat), iv.length = 16 →
    (∀ p ∈ ps, p.length = 16) →
    ccrypto.cbcDecBlocks D iv (ccrypto.cbcEncBlocks E iv ps) = ps := by
  intro ps
  induction ps with
  | nil =>
    intro iv _ _
    rfl
  | cons p ps ih =>
    intro iv hiv hall
    have hp : p.length = 16 := hall p (by simp)
    have hxlen : (ccrypto.xorBlock iv p).length = 16 := by
      rw [xorBlock_length, hiv, hp]
      simp
    simp only [ccrypto.cbcEncBlocks, ccrypto.cbcDecBlocks]
    rw [hED _ hxlen, xorBlock_cancel iv p (by omega)]
    rw [ih _ (hElen _ hxlen) (fun x hx => hall x (by simp [hx]))]

theorem cbcEncBlocks_length_all (E : List Nat → List Nat)
    (hElen : ∀ x, x.length = 16 → (E x).length = 16) :
    ∀ (ps : List (List Nat)) (iv : List Nat), iv.length = 16 →
    (∀ p ∈ ps, p.length = 16) →
    ∀ b ∈ ccrypto.cbcEncBlocks E iv ps, b.length = 16 := by
  intro ps
  induction ps with
  | nil =>
    intro iv _ _ b hb
    simp [ccrypto.cbcEncBlocks] at hb
  | cons p ps ih =>
    intro iv hiv hall b hb
    have hp : p.length = 16 := hall p (by simp)
    have hxlen : (ccrypto.xorBlock iv p).length = 16 := by
      rw [xorBlock_length, hiv, hp]
      simp
    simp only [ccrypto.cbcEncBlocks] at hb
    rcases List.mem_cons.mp hb with hb | hb
    · subst hb
      exact hElen _ hxlen
    · exact ih _ (hElen _ hxlen) (fun x hx => hall x (by simp [hx])) b hb

theorem flatten_length_all (k : Nat) :
    ∀ (ls : List (List Nat)), (∀ b ∈ ls, b.length = k) →
    ls.flatten.length = k * ls.length := by
  intro ls
  induction ls with
  | nil => simp
  | cons b bs ih =>
    intro hall
    rw [List.flatten_cons, List.length_append, hall b (by simp),
      ih (fun x hx => hall x (by simp [hx]))]
    simp only [List.length_cons]
    ring

theorem pkcs5_padded_mod (pt : List Nat) :
    (pt ++ ccrypto.pkcs5pad pt).length % 16 = 0 := by
  simp only [List.length_append, ccrypto.pkcs5pad, List.length_replicate]
  omega

theorem stripPkcs5_some (l : List Nat) (k : Nat) (h : l.getLast? = some k) :
    ccrypto.stripPkcs5 l
      = if 16 < k then .error "Incorrect ciphertext padding in last block"
        else if ccrypto.pySliceFromEnd l k ≠ List.replicate k k then
          .error "Incorrect ciphertext padding"
        else .ok (ccrypto.pySliceDropEnd l k) := by
  unfold ccrypto.stripPkcs5
  rw [h]

theorem stripPkcs5_pad (pt : List Nat) (hpt : pt ≠ []) :
    ccrypto.stripPkcs5 (pt ++ ccrypto.pkcs5pad pt) = .ok pt := by
  have hk1 : 1 ≤ 16 - pt.length % 16 := by omega
  have hk16 : 16 - pt.length % 16 ≤ 16 := by omega
  have hrep : ccrypto.pkcs5pad pt
      = List.replicate (16 - pt.length % 16 - 1) (16 - pt.length % 16)
        ++ [16 - pt.length % 16] := by
    unfold ccrypto.pkcs5pad
    rw [show 16 - pt.length % 16 = (16 - pt.length % 16 - 1) + 1 by omega,
      List.replicate_succ']
    rw [show 16 - pt.length % 16 - 1 + 1 - 1 = 16 - pt.length % 16 - 1 by
      omega]
  have hlast : (pt ++ ccrypto.pkcs5pad pt).getLast?
      = some (16 - pt.length % 16) := by
    rw [hrep, ← List.append_assoc, List.getLast?_concat]
  rw [stripPkcs5_some _ _ hlast]
  rw [if_neg (by omega)]
  have hfrom : ccrypto.pySliceFromEnd (pt ++ ccrypto.pkcs5pad pt)
      (16 - pt.length % 16)
      = List.replicate (16 - pt.length % 16) (16 - pt.length % 16) := by
    unfold ccrypto.pySliceFromEnd
    rw [if_neg (by omega)]
    have hlen : (pt ++ ccrypto.pkcs5pad pt).length - (16 - pt.length % 16)
        = pt.length := by
      simp only [List.length_append, ccrypto.pkcs5pad, List.length_replicate]
      omega
    rw [hlen]
    have := List.drop_left pt (ccrypto.pkcs5pad pt)
    rw [this]
    rfl
  rw [if_neg (by
    rw [hfrom]
    exact fun hcon => hcon rfl)]
  unfold ccrypto.pySliceDropEnd
  rw [if_neg (by omega)]
  have hlen : (pt ++ ccrypto.pkcs5pad pt).length - (16 - pt.length % 16)
      = pt.length := by
    simp only [List.length_append, ccrypto.pkcs5pad, List.length_replicate]
    omega
  rw [hlen, List.take_left]

theorem cbcEncBlocks_length (E : List Nat → List Nat) :
    ∀ (ps : List (List Nat)) (iv : List Nat),
    (ccrypto.cbcEncBlocks E iv ps).length = ps.length := by
  intro ps
  induction ps with
  | nil =>
    intro iv
    rfl
  | cons p ps ih =>
    intro iv
    simp only [ccrypto.cbcEncBlocks, List.length_cons]
    rw [ih]

theorem padded_blocks_all (pt : List Nat) :
    ∀ b ∈ number.chunksB 16 (pt ++ ccrypto.pkcs5pad pt), b.length = 16 :=
  chunksB_length_all 16 (by norm_num) _ (pkcs5_padded_mod pt)

theorem aescbc_roundtrip_randiv (E D : List Nat → List Nat)
    (hED : ∀ x, x.length = 16 → D (E x) = x)
    (hElen : ∀ x, x.length = 16 → (E x).length = 16)
    (riv : List Nat) (hriv : riv.length = 16)
    (pt : List Nat) (hpt : pt ≠ []) :
    (ccrypto.AesCbc.Encrypt E riv pt none).bind
      (fun ct => ccrypto.AesCbc.Decrypt D ct none) = .ok pt := by
  unfold ccrypto.AesCbc.Encrypt
  rw [if_neg hpt]
  rw [except_bind_ok]
  unfold ccrypto.AesCbc.Decrypt
  set blocks := number.chunksB 16 (pt ++ ccrypto.pkcs5pad pt) with hblocks
  set enc := ccrypto.cbcEncBlocks E riv blocks with henc
  have hencall : ∀ b ∈ enc, b.length = 16 :=
    cbcEncBlocks_length_all E hElen blocks riv hriv (padded_blocks_all pt)
  have hflen : enc.flatten.length = 16 * enc.length :=
    flatten_length_all 16 enc hencall
  rw [if_neg (by
    intro hcon
    have := congrArg List.length hcon
    simp [hriv] at this)]
  rw [if_neg (by
    simp only [List.length_append, hflen, hriv]
    omega)]
  rw [show (riv ++ enc.flatten).take 16 = riv by
    rw [← hriv]
    exact List.take_left riv enc.flatten]
  rw [show (riv ++ enc.flatten).drop 16 = enc.flatten by
    rw [← hriv]
    exact List.drop_left riv enc.flatten]
  rw [chunksB_flatten 16 (by norm_num) enc hencall]
  rw [henc, cbc_roundtrip E D hED hElen blocks riv hriv
    (padded_blocks_all pt)]
  rw [hblocks, chunksB_join 16 (by norm_num) _]
  exact stripPkcs5_pad pt hpt

theorem aescbc_roundtrip_fixediv (E D : List Nat → List Nat)
    (hED : ∀ x, x.length = 16 → D (E x) = x)
    (hElen : ∀ x, x.length = 16 → (E x).length = 16)
    (riv v : List Nat) (hv : v.length = 16)
    (pt : List Nat) (hpt : pt ≠ []) :
    (ccrypto.AesCbc.Encrypt E riv pt (some v)).bind
      (fun ct => ccrypto.AesCbc.Decrypt D ct (some v)) = .ok pt := by
  unfold ccrypto.AesCbc.Encrypt
  rw [if_neg hpt]
  simp only [if_neg (show ¬(v.length ≠ 16) from fun h => h hv)]
  rw [except_bind_ok]
  unfold ccrypto.AesCbc.Decrypt
  set blocks := number.chunksB 16 (pt ++ ccrypto.pkcs5pad pt) with hblocks
  set enc := ccrypto.cbcEncBlocks E v blocks with henc
  have hencall : ∀ b ∈ enc, b.length = 16 :=
    cbcEncBlocks_length_all E hElen blocks v hv (padded_blocks_all pt)
  have hflen : enc.flatten.length = 16 * enc.length :=
    flatten_length_all 16 enc hencall
  have hebl : enc.length = blocks.length := by
    rw [henc]
    exact cbcEncBlocks_length E blocks v
  have hblen : blocks.flatten.length = 16 * blocks.length :=
    flatten_length_all 16 blocks (padded_blocks_all pt)
  have hpadlen : 0 < (pt ++ ccrypto.pkcs5pad pt).length := by
    simp only [List.length_append, ccrypto.pkcs5pad, List.length_replicate]
    omega
  have hjoin := chunksB_join 16 (by norm_num)
    (pt ++ ccrypto.pkcs5pad pt)
  rw [← hblocks] at hjoin
  have hblkpos : 0 < blocks.length := by
    by_contra hcon
    push_neg at hcon
    have hnil : blocks = [] := List.length_eq_zero.mp (by omega)
    have hlen := congrArg List.length hjoin
    rw [hnil] at hlen
    simp only [List.flatten_nil, List.length_nil] at hlen
    omega
  rw [if_neg (by
    intro hcon
    have hlen := congrArg List.length hcon
    rw [hflen, hebl] at hlen
    simp only [List.length_nil] at hlen
    omega)]
  rw [if_neg (by
    rw [hflen]
    omega)]
  simp only [if_neg (show ¬(v.length ≠ 16) from fun h => h hv)]
  rw [chunksB_flatten 16 (by norm_num) enc hencall]
  rw [henc, cbc_roundtrip E D hED hElen blocks v hv (padded_blocks_all pt)]
  rw [hblocks, chunksB_join 16 (by norm_num) _]
  exact stripPkcs5_pad pt hpt

/-! ## Single-value homomorphic round trips -/

theorem encryptInt64_roundtrip (pk : paillier.Paillier) {p q : Nat}
    (vk : pk.ValidKey p q) (m : Int) (r : Nat)
    (hm1 : paillier.MIN_INT64 ≤ m) (hm2 : m ≤ paillier.MAX_INT64)
    (hr : r.Coprime pk.n)
    (hfit : paillier.Extend64bitTo96bitTwosComplement m < pk.n) :
    (pk.EncryptInt64 m r).bind pk.DecryptInt64 = .ok m := by
  unfold paillier.Paillier.EncryptInt64
  rw [if_neg (by
    intro hcon
    rcases hcon with h | h
    · exact absurd hm1 (by omega)
    · exact absurd hm2 (by omega))]
  rw [except_bind_ok]
  unfold paillier.Paillier.DecryptInt64
  rw [decrypt_form pk vk (paillier.Extend64bitTo96bitTwosComplement m) r hr _
    (encrypt_mod pk _ r)]
  rw [Nat.mod_eq_of_lt hfit]
  refine unwrap_recover _ m hm1 hm2 ?_
  rw [(ext_int m hm1 hm2).1]
  exact Int.emod_emod_of_dvd m dvd_rfl

theorem encryptFloat_roundtrip (pk : paillier.Paillier) {p q : Nat}
    (vk : pk.ValidKey p q) (b : Nat) (r : Nat) (hb : b < 2 ^ 64)
    (h1 : 634 ≤ paillier.expField b) (h2 : paillier.expField b ≤ 1412)
    (hr : r.Coprime pk.n)
    (hfit : paillier.floatPayload b < pk.n) :
    (pk.EncryptFloat b r).bind pk.DecryptFloat = .ok b := by
  have henc : paillier.floatEncode b = .ok (paillier.floatPayload b) := by
    rw [floatEncode_band b hb h1 h2]
    rfl
  unfold paillier.Paillier.EncryptFloat
  rw [henc]
  rw [except_map_ok, except_bind_ok]
  unfold paillier.Paillier.DecryptFloat
  rw [decrypt_form pk vk (paillier.floatPayload b) r hr _
    (encrypt_mod pk _ r)]
  rw [Nat.mod_eq_of_lt hfit]
  have hsign : paillier.signField b = 0 ∨ paillier.signField b = 1 := by
    rw [signField_eq]
    omega
  have hAlt := mantShift_lt b h2
  have hApos := mantShift_pos b
  rcases hsign with hs | hs
  · have hpl : paillier.floatPayload b
        = paillier.mantField b * 2 ^ (paillier.expField b - 634) := by
      unfold paillier.floatPayload
      rw [if_neg (by omega)]
    rw [hpl]
    exact floatDecode_posS _ b hb hs h1 h2
      (Nat.mod_eq_of_lt hAlt)
      (by omega) (by omega) (by omega) (by omega) (by omega)
  · have hpl : paillier.floatPayload b
        = 2 ^ 895 - paillier.mantField b * 2 ^ (paillier.expField b - 634) := by
      unfold paillier.floatPayload
      rw [if_pos hs]
    rw [hpl]
    exact floatDecode_negS _ b hb hs h1 h2
      (by omega) (by omega) (by omega) (by omega) (by omega) (by omega)

theorem probabilistic_roundtrip (E D : List Nat → List Nat)
    (hED : ∀ x, x.length = 16 → D (E x) = x)
    (hElen : ∀ x, x.length = 16 → (E x).length = 16)
    (riv : List Nat) (hriv : riv.length = 16)
    (utf8e : String → List Nat) (utf8d : List Nat → Except String String)
    (b64e b64d : List Nat → List Nat) (hb64 : ∀ y, b64d (b64e y) = y)
    (x : String) (hx : utf8e x ≠ []) (hU : utf8d (utf8e x) = .ok x) :
    (ecrypto.ProbabilisticCipher.Encrypt E riv utf8e b64e x).bind
      (ecrypto.ProbabilisticCipher.Decrypt D utf8d b64d) = .ok x := by
  have hae : ccrypto.AesCbc.Encrypt E riv (utf8e x) none
      = .ok (riv ++ (ccrypto.cbcEncBlocks E riv (number.chunksB 16
          (utf8e x ++ ccrypto.pkcs5pad (utf8e x)))).flatten) := by
    unfold ccrypto.AesCbc.Encrypt
    rw [if_neg hx]
  have hrt := aescbc_roundtrip_randiv E D hED hElen riv hriv (utf8e x) hx
  rw [hae, except_bind_ok] at hrt
  unfold ecrypto.ProbabilisticCipher.Encrypt
  rw [if_neg hx, hae, except_map_ok, except_bind_ok]
  unfold ecrypto.ProbabilisticCipher.Decrypt
  rw [hb64, hrt, except_bind_ok, hU]

theorem pseudonym_roundtrip (E D : List Nat → List Nat)
    (hED : ∀ x, x.length = 16 → D (E x) = x)
    (hElen : ∀ x, x.length = 16 → (E x).length = 16)
    (utf8e : String → List Nat) (utf8d : List Nat → Except String String)
    (b64e b64d : List Nat → List Nat) (hb64 : ∀ y, b64d (b64e y) = y)
    (x : String) (hx : utf8e x ≠ []) (hU : utf8d (utf8e x) = .ok x) :
    (ecrypto.PseudonymCipher.Encrypt E utf8e b64e x).bind
      (ecrypto.PseudonymCipher.Decrypt D utf8d b64d) = .ok x := by
  have hivlen : (List.replicate 16 (0 : Nat)).length = 16 := by simp
  have hae : ccrypto.AesCbc.Encrypt E [] (utf8e x)
        (some (List.replicate 16 0))
      = .ok ((ccrypto.cbcEncBlocks E (List.replicate 16 0)
          (number.chunksB 16
            (utf8e x ++ ccrypto.pkcs5pad (utf8e x)))).flatten) := by
    unfold ccrypto.AesCbc.Encrypt
    rw [if_neg hx]
    simp only [if_neg (show ¬((List.replicate 16 (0 : Nat)).length ≠ 16)
      from fun h => h hivlen)]
  have hrt := aescbc_roundtrip_fixediv E D hED hElen []
    (List.replicate 16 0) hivlen (utf8e x) hx
  rw [hae, except_bind_ok] at hrt
  unfold ecrypto.PseudonymCipher.Encrypt
  rw [if_neg hx, hae, except_map_ok, except_bind_ok]
  unfold ecrypto.PseudonymCipher.Decrypt
  rw [hb64, hrt, except_bind_ok, hU]

/-- **C1.** Decryption inverts encryption for every cipher: with the AES block
cipher, base64 and UTF-8 codings abstracted by function pairs satisfying
their library contracts, `ProbabilisticCipher` and `PseudonymCipher` recover
every string whose UTF-8 coding is non-empty; `HomomorphicIntCipher` recovers
every int64 in `[-2^63, 2^63)`; and `HomomorphicFloatCipher` recovers every
finite double whose unbiased exponent has magnitude at most 389 (biased
exponent in 634..1412).  The Paillier keys are honestly generated, the
`r_value`s are coprime to the modulus as guaranteed by key generation, and
the payload-fit bounds hold for every generated key (`n` has 1024 bits,
int64 payloads are below `2^96` and float payloads below `2^896`). -/
theorem decrypt_inverts_encrypt (E D : List Nat → List Nat)
    (hED : ∀ x, x.length = 16 → D (E x) = x)
    (hElen : ∀ x, x.length = 16 → (E x).length = 16)
    (riv : List Nat) (hriv : riv.length = 16)
    (utf8e : String → List Nat) (utf8d : List Nat → Except String String)
    (b64e b64d : List Nat → List Nat) (hb64 : ∀ y, b64d (b64e y) = y)
    (x : String) (hx : utf8e x ≠ []) (hU : utf8d (utf8e x) = .ok x)
    (pkI pkF : paillier.Paillier) (pI qI pF qF : Nat)
    (vkI : pkI.ValidKey pI qI) (vkF : pkF.ValidKey pF qF)
    (rI rF : Nat) (hrI : rI.Coprime pkI.n) (hrF : rF.Coprime pkF.n) :
    (ecrypto.ProbabilisticCipher.Encrypt E riv utf8e b64e x).bind
      (ecrypto.ProbabilisticCipher.Decrypt D utf8d b64d) = .ok x
    ∧ (ecrypto.PseudonymCipher.Encrypt E utf8e b64e x).bind
        (ecrypto.PseudonymCipher.Decrypt D utf8d b64d) = .ok x
    ∧ (∀ m : Int, paillier.MIN_INT64 ≤ m → m ≤ paillier.MAX_INT64 →
        paillier.Extend64bitTo96bitTwosComplement m < pkI.n →
        (ecrypto.HomomorphicIntCipher.Encrypt pkI b64e m rI).bind
          (ecrypto.HomomorphicIntCipher.Decrypt pkI b64d) = .ok m)
    ∧ (∀ b : Nat, b < 2 ^ 64 →
        634 ≤ paillier.expField b → paillier.expField b ≤ 1412 →
        paillier.floatPayload b < pkF.n →
        (ecrypto.HomomorphicFloatCipher.Encrypt pkF b64e b rF).bind
          (ecrypto.HomomorphicFloatCipher.Decrypt pkF b64d) = .ok b) := by
  refine ⟨probabilistic_roundtrip E D hED hElen riv hriv utf8e utf8d
    b64e b64d hb64 x hx hU,
    pseudonym_roundtrip E D hED hElen utf8e utf8d b64e b64d hb64 x hx hU,
    ?_, ?_⟩
  · intro m hm1 hm2 hfitI
    have hint := encryptInt64_roundtrip pkI vkI m rI hm1 hm2 hrI hfitI
    unfold ecrypto.HomomorphicIntCipher.Encrypt
      ecrypto.HomomorphicIntCipher.Decrypt
    cases hE : pkI.EncryptInt64 m rI with
    | error e =>
      rw [hE] at hint
      exact absurd hint (by simp [Except.bind])
    | ok c =>
      rw [hE, except_bind_ok] at hint
      rw [except_map_ok, except_bind_ok, hb64, bytesToLong_longToBytes]
      exact hint
  · intro b hb h1 h2 hfitF
    have hflt := encryptFloat_roundtrip pkF vkF b rF hb h1 h2 hrF hfitF
    unfold ecrypto.HomomorphicFloatCipher.Encrypt
      ecrypto.HomomorphicFloatCipher.Decrypt
    cases hE : pkF.EncryptFloat b rF with
    | error e =>
      rw [hE] at hflt
      exact absurd hflt (by simp [Except.bind])
    | ok c =>
      rw [hE, except_bind_ok] at hflt
      rw [except_map_ok, except_bind_ok, hb64, bytesToLong_longToBytes]
      exact hflt

theorem decrypt_inverts_encrypt_witness :
    (ecrypto.ProbabilisticCipher.Encrypt (fun l => l) (List.replicate 16 0)
        (fun _ => [97]) (fun y => y) "a").bind
      (ecrypto.ProbabilisticCipher.Decrypt (fun l => l)
        (fun _ => Except.ok "a") (fun y => y)) = .ok "a"
    ∧ (ecrypto.PseudonymCipher.Encrypt (fun l => l) (fun _ => [97])
          (fun y => y) "a").bind
        (ecrypto.PseudonymCipher.Decrypt (fun l => l)
          (fun _ => Except.ok "a") (fun y => y)) = .ok "a"
    ∧ (ecrypto.HomomorphicIntCipher.Encrypt ⟨35, 1225, 36, 24, 19⟩
          (fun y => y) 3 2).bind
        (ecrypto.HomomorphicIntCipher.Decrypt ⟨35, 1225, 36, 24, 19⟩
          (fun y => y)) = .ok 3
    ∧ (∀ b : Nat, b < 2 ^ 64 →
        634 ≤ paillier.expField b → paillier.expField b ≤ 1412 →
        paillier.floatPayload b
          < (⟨35, 1225, 36, 24, 19⟩ : paillier.Paillier).n →
        (ecrypto.HomomorphicFloatCipher.Encrypt ⟨35, 1225, 36, 24, 19⟩
            (fun y => y) b 2).bind
          (ecrypto.HomomorphicFloatCipher.Decrypt ⟨35, 1225, 36, 24, 19⟩
            (fun y => y)) = .ok b) :=
  have h := decrypt_inverts_encrypt (fun l => l) (fun l => l) (fun _ _ => rfl)
    (fun _ h => h) (List.replicate 16 0) (by simp)
    (fun _ => [97]) (fun _ => Except.ok "a") (fun y => y) (fun y => y)
    (fun _ => rfl) "a" (by decide) rfl
    ⟨35, 1225, 36, 24, 19⟩ ⟨35, 1225, 36, 24, 19⟩ 5 7 5 7
    ⟨by norm_num, by norm_num, by norm_num, rfl, rfl, rfl, rfl, by rfl⟩
    ⟨by norm_num, by norm_num, by norm_num, rfl, rfl, rfl, rfl, by rfl⟩
    2 2 (by decide) (by decide)
  ⟨h.1, h.2.1, h.2.2.1 3 (by decide) (by decide) (by decide), h.2.2.2⟩

/-! ## Paillier addition: helpers for the amended homomorphism statement -/

theorem floatEncode_payload (b : Nat) (hb : b < 2 ^ 64)
    (h1 : 634 ≤ paillier.expField b) (h2 : paillier.expField b ≤ 1412) :
    paillier.floatEncode b = .ok (paillier.floatPayload b) := by
  rw [floatEncode_band b hb h1 h2]
  rfl

theorem floatEncode_le (x px : Nat) (h : paillier.floatEncode x = .ok px) :
    px ≤ 2 ^ 991 := by
  have hm : paillier.mantField x < 2 ^ 53 := by
    rw [mantField_eq]
    have := Nat.mod_lt x (show 0 < 2 ^ 52 by norm_num)
    omega
  unfold paillier.floatEncode at h
  dsimp only at h
  split_ifs at h with h1 h2 h3 h4 h5 h6 h7
  · rw [Except.ok.injEq] at h
    rw [← h, show paillier.FLOAT_NAN_LSB = 991 from rfl, Nat.shiftLeft_eq]
    omega
  · rw [Except.ok.injEq] at h
    rw [← h, show paillier.FLOAT_PLUSINF_LSB = 959 from rfl, Nat.shiftLeft_eq]
    norm_num
  · rw [Except.ok.injEq] at h
    rw [← h, show paillier.FLOAT_MINUSINF_LSB = 927 from rfl, Nat.shiftLeft_eq]
    norm_num
  · rw [Except.ok.injEq] at h
    omega
  · rw [Except.ok.injEq] at h
    omega
  · -- negative sign: twos complement of the shifted mantissa
    rw [Except.ok.injEq] at h
    rw [← h]
    have hpt : (paillier.mantField x <<< paillier.FLOAT_MANTISSA_LSB)
        >>> ((paillier.FLOAT_MANTISSA_ZERO : Int)
          - ((paillier.expField x : Int) - paillier.EXPONENT_BIAS)).toNat
        < 2 ^ 895 := by
      rw [show paillier.FLOAT_MANTISSA_LSB = 778 from rfl,
        Nat.shiftLeft_eq, Nat.shiftRight_eq_div_pow]
      have hprod : paillier.mantField x * 2 ^ 778 < 2 ^ 895 := by
        calc paillier.mantField x * 2 ^ 778 < 2 ^ 53 * 2 ^ 778 :=
          Nat.mul_lt_mul_of_lt_of_le hm (le_refl _) (by positivity)
        _ ≤ 2 ^ 895 := by norm_num [← pow_add]
      calc paillier.mantField x * 2 ^ 778 / 2 ^ _ ≤
          paillier.mantField x * 2 ^ 778 := Nat.div_le_self _ _
        _ < 2 ^ 895 := hprod
    have hxor := Nat.xor_lt_two_pow (n := 895) hpt
      (show paillier.ONES_CARRYOVER_LSB < 2 ^ 895 by
        rw [show paillier.ONES_CARRYOVER_LSB = 2 ^ 895 - 1 from rfl]
        omega)
    rw [show paillier.ONES_CARRYOVER_LSB = 2 ^ 895 - 1 from rfl]
    rw [show paillier.ONES_CARRYOVER_LSB = 2 ^ 895 - 1 from rfl] at hxor
    omega
  · -- positive sign: the shifted mantissa itself
    rw [Except.ok.injEq] at h
    rw [← h]
    rw [show paillier.FLOAT_MANTISSA_LSB = 778 from rfl,
      Nat.shiftLeft_eq, Nat.shiftRight_eq_div_pow]
    have hprod : paillier.mantField x * 2 ^ 778 < 2 ^ 895 := by
      calc paillier.mantField x * 2 ^ 778 < 2 ^ 53 * 2 ^ 778 :=
        Nat.mul_lt_mul_of_lt_of_le hm (le_refl _) (by positivity)
      _ ≤ 2 ^ 895 := by norm_num [← pow_add]
    exact le_trans (Nat.div_le_self _ _) (by omega)

theorem floatDecode_trunc_eval :
    paillier.floatDecode (2 ^ 494 + 3 * 2 ^ 441)
      = .ok (1076 * 2 ^ 52 + 1) := by
  set S : Nat := 2 ^ 494 + 3 * 2 ^ 441 with hS
  unfold paillier.floatDecode
  simp only [Nat.shiftRight_eq_div_pow,
    show (0xffffffff : Nat) = 2 ^ 32 - 1 by norm_num,
    show paillier.ONES_FLOAT_SIGN_LOW_LSB = 2 ^ 831 - 1 from rfl,
    show paillier.ONES_CARRYOVER_LSB = 2 ^ 895 - 1 from rfl,
    show paillier.ONES_832 = 2 ^ 832 - 1 from rfl,
    Nat.and_pow_two_sub_one_eq_mod,
    show paillier.MANTISSA_BITS = 53 from rfl,
    show paillier.EXPLICIT_MANTISSA_BITS = 52 from rfl,
    show paillier.FLOAT_MANTISSA_ZERO = 389 from rfl,
    show paillier.EXPONENT_BIAS = 1023 from rfl,
    show paillier.FLOAT_SIGN_LOW_LSB = 831 from rfl,
    show (0xfffffffffffff : Nat) = 2 ^ 52 - 1 by norm_num]
  rw [Nat.mod_eq_of_lt (show S < 2 ^ 831 by omega)]
  rw [if_neg (by omega), if_neg (by omega), if_neg (by omega),
    if_neg (by omega), if_neg (by omega), if_neg (by omega),
    if_pos (by omega)]
  rw [if_neg (by omega)]
  rw [size_eq_of_bounds S 494 (by omega) (by omega)]
  rw [if_pos (by omega)]
  rw [show (495 : Nat) - 53 = 442 by norm_num]
  rw [show S / 2 ^ 442 % 2 ^ 52 = 1 by omega]
  rw [Except.ok.injEq, or_shift_add _ 1 52 (by norm_num)]
  omega

theorem floatDecode_infsum :
    paillier.floatDecode (2 ^ 959 + 2 ^ 927) = .ok paillier.NAN_BITS := by
  unfold paillier.floatDecode
  simp only [Nat.shiftRight_eq_div_pow,
    show (0xffffffff : Nat) = 2 ^ 32 - 1 by norm_num,
    show paillier.ONES_FLOAT_SIGN_LOW_LSB = 2 ^ 831 - 1 from rfl,
    Nat.and_pow_two_sub_one_eq_mod]
  rw [if_neg (by omega), if_pos (by omega)]

theorem floatDecode_nansum (px : Nat) (hle : px ≤ 2 ^ 991) :
    paillier.floatDecode (2 ^ 991 + px) = .ok paillier.NAN_BITS := by
  unfold paillier.floatDecode
  simp only [Nat.shiftRight_eq_div_pow,
    show (0xffffffff : Nat) = 2 ^ 32 - 1 by norm_num,
    show paillier.ONES_FLOAT_SIGN_LOW_LSB = 2 ^ 831 - 1 from rfl,
    Nat.and_pow_two_sub_one_eq_mod]
  rw [if_pos (by omega)]

theorem floatAdd_exact_decode (a b c : Nat) (ha : a < 2 ^ 64)
    (hb : b < 2 ^ 64) (hc : c < 2 ^ 64)
    (ha1 : 634 ≤ paillier.expField a) (ha2 : paillier.expField a ≤ 1412)
    (hb1 : 634 ≤ paillier.expField b) (hb2 : paillier.expField b ≤ 1412)
    (hc1 : 634 ≤ paillier.expField c) (hc2 : paillier.expField c ≤ 1412)
    (hsv : paillier.scaledValue c
      = paillier.scaledValue a + paillier.scaledValue b) :
    paillier.floatDecode (paillier.floatPayload a + paillier.floatPayload b)
      = .ok c := by
  have hsa : paillier.signField a = 0 ∨ paillier.signField a = 1 := by
    rw [signField_eq]
    omega
  have hsb : paillier.signField b = 0 ∨ paillier.signField b = 1 := by
    rw [signField_eq]
    omega
  have hsc : paillier.signField c = 0 ∨ paillier.signField c = 1 := by
    rw [signField_eq]
    omega
  have hApos := mantShift_pos a
  have hBpos := mantShift_pos b
  have hCpos := mantShift_pos c
  have hAlt := mantShift_lt a ha2
  have hBlt := mantShift_lt b hb2
  have hClt := mantShift_lt c hc2
  unfold paillier.scaledValue at hsv
  unfold paillier.floatPayload
  rcases hsa with hsa | hsa <;> rcases hsb with hsb | hsb <;>
    rcases hsc with hsc | hsc
  · -- a >= 0, b >= 0, c >= 0
    rw [if_neg (show ¬(paillier.signField c = 1) by omega),
      if_neg (show ¬(paillier.signField a = 1) by omega),
      if_neg (show ¬(paillier.signField b = 1) by omega)] at hsv
    rw [if_neg (show ¬(paillier.signField a = 1) by omega),
      if_neg (show ¬(paillier.signField b = 1) by omega)]
    exact floatDecode_posS _ c hc hsc hc1 hc2 (by omega) (by omega)
      (by omega) (by omega) (by omega) (by omega)
  · -- a >= 0, b >= 0 but c < 0: impossible
    rw [if_pos hsc,
      if_neg (show ¬(paillier.signField a = 1) by omega),
      if_neg (show ¬(paillier.signField b = 1) by omega)] at hsv
    exfalso
    omega
  · -- a >= 0, b < 0, c >= 0
    rw [if_neg (show ¬(paillier.signField c = 1) by omega),
      if_neg (show ¬(paillier.signField a = 1) by omega),
      if_pos hsb] at hsv
    rw [if_neg (show ¬(paillier.signField a = 1) by omega), if_pos hsb]
    exact floatDecode_posS _ c hc hsc hc1 hc2 (by omega) (by omega)
      (by omega) (by omega) (by omega) (by omega)
  · -- a >= 0, b < 0, c < 0
    rw [if_pos hsc,
      if_neg (show ¬(paillier.signField a = 1) by omega),
      if_pos hsb] at hsv
    rw [if_neg (show ¬(paillier.signField a = 1) by omega), if_pos hsb]
    exact floatDecode_negS _ c hc hsc hc1 hc2 (by omega) (by omega)
      (by omega) (by omega) (by omega) (by omega)
  · -- a < 0, b >= 0, c >= 0
    rw [if_neg (show ¬(paillier.signField c = 1) by omega),
      if_pos hsa,
      if_neg (show ¬(paillier.signField b = 1) by omega)] at hsv
    rw [if_pos hsa,
      if_neg (show ¬(paillier.signField b = 1) by omega)]
    exact floatDecode_posS _ c hc hsc hc1 hc2 (by omega) (by omega)
      (by omega) (by omega) (by omega) (by omega)
  · -- a < 0, b >= 0, c < 0
    rw [if_pos hsc, if_pos hsa,
      if_neg (show ¬(paillier.signField b = 1) by omega)] at hsv
    rw [if_pos hsa,
      if_neg (show ¬(paillier.signField b = 1) by omega)]
    exact floatDecode_negS _ c hc hsc hc1 hc2 (by omega) (by omega)
      (by omega) (by omega) (by omega) (by omega)
  · -- a < 0, b < 0, c >= 0: impossible
    rw [if_neg (show ¬(paillier.signField c = 1) by omega),
      if_pos hsa, if_pos hsb] at hsv
    exfalso
    omega
  · -- a < 0, b < 0, c < 0
    rw [if_pos hsc, if_pos hsa, if_pos hsb] at hsv
    rw [if_pos hsa, if_pos hsb]
    exact floatDecode_negS _ c hc hsc hc1 hc2 (by omega) (by omega)
      (by omega) (by omega) (by omega) (by omega)

/-- Counterexample to C2 as stated: the doubles `a = 2^53`
(bits `4845873199050653696`) and `b = 3.0` (bits `4613937818241073152`) have
the exact sum `2^53 + 3`, which IEEE-754 rounds to the double `2^53 + 4`
(bits `4845873199050653698`); both values and the IEEE sum lie well inside
the representable band.  The payloads add exactly, but `DecryptFloat`
TRUNCATES the 54-bit sum to 53 mantissa bits, producing the double `2^53 + 2`
(bits `4845873199050653697`): the decrypted value differs both from the IEEE
double sum `a + b` and from the exact sum, so
`DecryptFloat(Add(EncryptFloat(a), EncryptFloat(b))) = a + b` fails. -/
theorem paillierAdd_float_counterexample :
    paillier.floatEncode 4845873199050653696 = .ok (2 ^ 494)
    ∧ paillier.floatEncode 4613937818241073152 = .ok (3 * 2 ^ 441)
    ∧ paillier.floatDecode (2 ^ 494 + 3 * 2 ^ 441)
        = .ok (1076 * 2 ^ 52 + 1)
    ∧ paillier.scaledValue (1076 * 2 ^ 52 + 1)
        ≠ paillier.scaledValue 4845873199050653696
          + paillier.scaledValue 4613937818241073152
    ∧ (1076 * 2 ^ 52 + 1 : Nat) ≠ 4845873199050653698 :=
  ⟨by decide, by decide, floatDecode_trunc_eval, by decide, by decide⟩

/-- **C2 (amended).** Paillier addition is homomorphic in the following
sense: (a) int64 pairs whose sum stays in `[-2^63, 2^63)` decrypt to the
exact sum; (b) finite in-band doubles decrypt to the in-band double `c`
whose exact value equals the exact sum of the operands, whenever such a `c`
exists (when the exact sum is not representable, `DecryptFloat` truncates,
as the counterexample shows, so `a + b` under IEEE rounding is not always
recovered); (c) adding encryptions of `+inf` and `-inf` decrypts to NaN;
(d) adding an encryption of NaN to any encryptable float decrypts to NaN.
The payload-fit bounds hold for every honestly generated key (`n` has 1024
bits and every payload is below `2^992`). -/
theorem paillierAdd_homomorphic (pk : paillier.Paillier) (p q : Nat)
    (vk : pk.ValidKey p q) (r1 r2 : Nat)
    (hr1 : r1.Coprime pk.n) (hr2 : r2.Coprime pk.n) :
    (∀ (a b : Int), paillier.MIN_INT64 ≤ a → a ≤ paillier.MAX_INT64 →
      paillier.MIN_INT64 ≤ b → b ≤ paillier.MAX_INT64 →
      paillier.MIN_INT64 ≤ a + b → a + b ≤ paillier.MAX_INT64 →
      paillier.Extend64bitTo96bitTwosComplement a
        + paillier.Extend64bitTo96bitTwosComplement b < pk.n →
      ((pk.EncryptInt64 a r1).bind fun c1 =>
        (pk.EncryptInt64 b r2).bind fun c2 =>
          pk.DecryptInt64 (pk.Add c1 c2)) = .ok (a + b))
    ∧ (∀ (a b c : Nat), a < 2 ^ 64 → b < 2 ^ 64 → c < 2 ^ 64 →
      634 ≤ paillier.expField a → paillier.expField a ≤ 1412 →
      634 ≤ paillier.expField b → paillier.expField b ≤ 1412 →
      634 ≤ paillier.expField c → paillier.expField c ≤ 1412 →
      paillier.scaledValue c
        = paillier.scaledValue a + paillier.scaledValue b →
      paillier.floatPayload a + paillier.floatPayload b < pk.n →
      ((pk.EncryptFloat a r1).bind fun c1 =>
        (pk.EncryptFloat b r2).bind fun c2 =>
          pk.DecryptFloat (pk.Add c1 c2)) = .ok c)
    ∧ (2 ^ 959 + 2 ^ 927 < pk.n →
      ((pk.EncryptFloat paillier.INF_BITS r1).bind fun c1 =>
        (pk.EncryptFloat paillier.NINF_BITS r2).bind fun c2 =>
          pk.DecryptFloat (pk.Add c1 c2)) = .ok paillier.NAN_BITS)
    ∧ (∀ (x px : Nat), paillier.floatEncode x = .ok px →
      2 ^ 991 + px < pk.n →
      ((pk.EncryptFloat paillier.NAN_BITS r1).bind fun c1 =>
        (pk.EncryptFloat x r2).bind fun c2 =>
          pk.DecryptFloat (pk.Add c1 c2)) = .ok paillier.NAN_BITS) := by
  have hr12 : (r1 * r2).Coprime pk.n := Nat.Coprime.mul hr1 hr2
  refine ⟨?_, ?_, ?_, ?_⟩
  · -- int64 pairs
    intro a b ha1 ha2 hb1 hb2 hs1 hs2 hfit
    unfold paillier.Paillier.EncryptInt64
    rw [if_neg (by
      intro hcon
      rcases hcon with h | h
      · exact absurd ha1 (by omega)
      · exact absurd ha2 (by omega))]
    rw [except_bind_ok]
    rw [if_neg (by
      intro hcon
      rcases hcon with h | h
      · exact absurd hb1 (by omega)
      · exact absurd hb2 (by omega))]
    rw [except_bind_ok]
    unfold paillier.Paillier.DecryptInt64
    rw [decrypt_form pk vk
      (paillier.Extend64bitTo96bitTwosComplement a
        + paillier.Extend64bitTo96bitTwosComplement b) (r1 * r2) hr12 _
      (add_form pk _ _ _ _ r1 r2 (encrypt_mod pk _ r1) (encrypt_mod pk _ r2))]
    rw [Nat.mod_eq_of_lt hfit]
    refine unwrap_recover _ (a + b) hs1 hs2 ?_
    push_cast
    rw [(ext_int a ha1 ha2).1, (ext_int b hb1 hb2).1]
    omega
  · -- exact float sums
    intro a b c ha hb hc ha1 ha2 hb1 hb2 hc1 hc2 hsv hfit
    unfold paillier.Paillier.EncryptFloat
    rw [floatEncode_payload a ha ha1 ha2, except_map_ok, except_bind_ok,
      floatEncode_payload b hb hb1 hb2, except_map_ok, except_bind_ok]
    unfold paillier.Paillier.DecryptFloat
    rw [decrypt_form pk vk
      (paillier.floatPayload a + paillier.floatPayload b) (r1 * r2) hr12 _
      (add_form pk _ _ _ _ r1 r2 (encrypt_mod pk _ r1) (encrypt_mod pk _ r2))]
    rw [Nat.mod_eq_of_lt hfit]
    exact floatAdd_exact_decode a b c ha hb hc ha1 ha2 hb1 hb2 hc1 hc2 hsv
  · -- +inf plus -inf
    intro hfit
    unfold paillier.Paillier.EncryptFloat
    rw [show paillier.floatEncode paillier.INF_BITS = .ok (2 ^ 959) by decide,
      except_map_ok, except_bind_ok,
      show paillier.floatEncode paillier.NINF_BITS = .ok (2 ^ 927) by decide,
      except_map_ok, except_bind_ok]
    unfold paillier.Paillier.DecryptFloat
    rw [decrypt_form pk vk (2 ^ 959 + 2 ^ 927) (r1 * r2) hr12 _
      (add_form pk _ _ _ _ r1 r2 (encrypt_mod pk _ r1) (encrypt_mod pk _ r2))]
    rw [Nat.mod_eq_of_lt hfit]
    exact floatDecode_infsum
  · -- NaN plus anything
    intro x px hpx hfit
    have hle := floatEncode_le x px hpx
    unfold paillier.Paillier.EncryptFloat
    rw [show paillier.floatEncode paillier.NAN_BITS = .ok (2 ^ 991) by decide,
      except_map_ok, except_bind_ok, hpx, except_map_ok, except_bind_ok]
    unfold paillier.Paillier.DecryptFloat
    rw [decrypt_form pk vk (2 ^ 991 + px) (r1 * r2) hr12 _
      (add_form pk _ _ _ _ r1 r2 (encrypt_mod pk _ r1) (encrypt_mod pk _ r2))]
    rw [Nat.mod_eq_of_lt hfit]
    exact floatDecode_nansum px hle

theorem paillierAdd_homomorphic_witness :
    (((⟨35, 1225, 36, 24, 19⟩ : paillier.Paillier).EncryptInt64 1 2).bind
      fun c1 =>
        ((⟨35, 1225, 36, 24, 19⟩ : paillier.Paillier).EncryptInt64 2 3).bind
          fun c2 =>
            (⟨35, 1225, 36, 24, 19⟩ : paillier.Paillier).DecryptInt64
              ((⟨35, 1225, 36, 24, 19⟩ : paillier.Paillier).Add c1 c2))
      = .ok 3
    ∧ (∀ (a b c : Nat), a < 2 ^ 64 → b < 2 ^ 64 → c < 2 ^ 64 →
        634 ≤ paillier.expField a → paillier.expField a ≤ 1412 →
        634 ≤ paillier.expField b → paillier.expField b ≤ 1412 →
        634 ≤ paillier.expField c → paillier.expField c ≤ 1412 →
        paillier.scaledValue c
          = paillier.scaledValue a + paillier.scaledValue b →
        paillier.floatPayload a + paillier.floatPayload b
          < (⟨35, 1225, 36, 24, 19⟩ : paillier.Paillier).n →
        (((⟨35, 1225, 36, 24, 19⟩ : paillier.Paillier).EncryptFloat a 2).bind
          fun c1 =>
            ((⟨35, 1225, 36, 24, 19⟩ :
                paillier.Paillier).EncryptFloat b 3).bind
              fun c2 =>
                (⟨35, 1225, 36, 24, 19⟩ : paillier.Paillier).DecryptFloat
                  ((⟨35, 1225, 36, 24, 19⟩ : paillier.Paillier).Add c1 c2))
          = .ok c) :=
  have h := paillierAdd_homomorphic
    (⟨35, 1225, 36, 24, 19⟩ : paillier.Paillier) 5 7
    ⟨by norm_num, by norm_num, by norm_num, rfl, rfl, rfl, rfl, by rfl⟩
    2 3 (by decide) (by decide)
  ⟨h.1 1 2 (by decide) (by decide) (by decide) (by decide) (by decide)
      (by decide) (by decide),
    h.2.1⟩

/-! ## The residual evaluator: null propagation -/

/-- Counterexample to C5 as stated: the claim exempts the operator `is` from
null short-circuiting ("compares the operands' identity even when one is
null") and says builtins yield null on a null operand "without applying the
function".  In the source the `if None in args: return None` check covers
EVERY operator including `is`, so `NULL is NULL` evaluates to null rather
than true (the abstract identity function is instantiated to return true
here, and is never consulted); and the builtin path's `result = None`
assignment is dead, so `boolean(NULL)` applies Python `bool` and returns
false rather than null. -/
theorem evaluate_null_counterexample :
    interpreter.Evaluate (fun _ _ => .null) (fun _ _ => .b true)
        [.opTok "is" 2, .val .null, .val .null] = .ok .null
    ∧ (interpreter.Evaluate (fun _ _ => .null) (fun _ _ => .b true)
        [.opTok "is" 2, .val .null, .val .null]
        ≠ .ok (.b true))
    ∧ interpreter.Evaluate (fun _ _ => .null) (fun _ _ => .b true)
        [.fn "boolean", .val .null] = .ok (.b false)
    ∧ (interpreter.Value.b false) ≠ .null := by
  refine ⟨rfl, ?_, rfl, ?_⟩
  · intro hcon
    rw [show interpreter.Evaluate (fun _ _ => .null) (fun _ _ => .b true)
        [.opTok "is" 2, .val .null, .val .null] = .ok .null from rfl] at hcon
    exact absurd (Except.ok.inj hcon) (by simp)
  · intro hcon
    exact absurd hcon (by simp)

/-- **C5 (amended).** In `Evaluate`, EVERY operator — including `is` — yields
null without consulting the operator table when any resolved operand is
null (the `if None in args: return None` check precedes dispatch, so this
holds for arbitrary, even unknown, operator names); division by zero raises
the invalid-query error `Division by zero.`; and builtin functions do NOT
short-circuit on null: the dead `result = None` assignment is overwritten
and the function is applied, e.g. `boolean(NULL)` returns false. -/
theorem evaluate_null_and_division (fdiv : Int → Int → interpreter.Value)
    (isid : interpreter.Value → interpreter.Value → interpreter.Value) :
    (∀ name : String, interpreter.Evaluate fdiv isid
        [.opTok name 1, .val .null] = .ok .null)
    ∧ (∀ (name : String) (a b : interpreter.Value),
        a = .null ∨ b = .null →
        interpreter.Evaluate fdiv isid [.opTok name 2, .val b, .val a]
          = .ok .null)
    ∧ (∀ x : Int, interpreter.Evaluate fdiv isid
        [.opTok "/" 2, .val (.i 0), .val (.i x)]
          = .error "Division by zero.")
    ∧ interpreter.Evaluate fdiv isid [.fn "boolean", .val .null]
        = .ok (.b false) := by
  refine ⟨fun name => rfl, ?_, fun x => rfl, rfl⟩
  intro name a b h
  rcases h with h | h
  · subst h
    rfl
  · subst h
    cases a <;> rfl

theorem evaluate_null_and_division_witness :
    interpreter.Evaluate (fun _ _ => .null) (fun _ _ => .b true)
        [.opTok "not" 1, .val .null] = .ok .null
    ∧ interpreter.Evaluate (fun _ _ => .null) (fun _ _ => .b true)
        [.opTok "+" 2, .val (.i 5), .val .null] = .ok .null
    ∧ interpreter.Evaluate (fun _ _ => .null) (fun _ _ => .b true)
        [.opTok "/" 2, .val (.i 0), .val (.i 7)]
        = .error "Division by zero."
    ∧ interpreter.Evaluate (fun _ _ => .null) (fun _ _ => .b true)
        [.fn "boolean", .val .null] = .ok (.b false) :=
  have h := evaluate_null_and_division (fun _ _ => .null)
    (fun _ _ => .b true)
  ⟨h.1 "not", h.2.1 "+" .null (.i 5) (Or.inl rfl), h.2.2.1 7, h.2.2.2⟩

/-- **C10.** The builtin three-argument function `if` is defined in the
source as `lambda a, b, c: b if a else b`, so for non-null operands the
evaluator returns the second argument `b` whatever the truth value of the
condition `a` is; the third argument `c` never influences the result. -/
theorem if_builtin_returns_second (fdiv : Int → Int → interpreter.Value)
    (isid : interpreter.Value → interpreter.Value → interpreter.Value)
    (a b c : interpreter.Value)
    (ha : a ≠ .null) (hb : b ≠ .null) (hc : c ≠ .null) :
    interpreter.Evaluate fdiv isid [.fn "if", .val c, .val b, .val a]
      = .ok b := by
  have hred : interpreter.Evaluate fdiv isid
      [.fn "if", .val c, .val b, .val a]
      = .ok (if interpreter.truthy a then b else b) := rfl
  rw [hred, ite_self]

theorem if_builtin_returns_second_witness :
    (interpreter.Value.b true) ≠ .null
    ∧ interpreter.Evaluate (fun _ _ => .null) (fun _ _ => .b true)
        [.fn "if", .val (.i 7), .val (.i 5), .val (.b true)]
        = .ok (.i 5)
    ∧ interpreter.Evaluate (fun _ _ => .null) (fun _ _ => .b true)
        [.fn "if", .val (.i 7), .val (.i 5), .val (.b false)]
        = .ok (.i 5) :=
  ⟨by decide,
    if_builtin_returns_second (fun _ _ => .null) (fun _ _ => .b true)
      (.b true) (.i 5) (.i 7) (by decide) (by decide) (by decide),
    if_builtin_returns_second (fun _ _ => .null) (fun _ _ => .b true)
      (.b false) (.i 5) (.i 7) (by decide) (by decide) (by decide)⟩

/-! ## WHERE/HAVING equality rewriting -/

/-- **C4.** Rewriting `=`, `==`, `!=` in a WHERE/HAVING postfix expression:
with a pseudonym-encrypted field as one operand and a string literal as the
other (in either order), the emitted server expression keeps the renamed
field and replaces the literal with the quoted deterministic pseudonym
ciphertext of its contents — encrypted under the cipher derived from the
field's `related` tag when the token carries one (an unmatched tag raises),
and under the table pseudonym cipher otherwise; and if either operand is a
probabilistic-, searchwords-, or homomorphic-encrypted field, the rewrite
raises the invalid-query error. -/
theorem equality_pseudonym_rewrite (tableEnc : String → String)
    (relEnc : String → Option (String → String))
    (containsRw : util.QTok → util.QTok →
      Except String (util.QTok × util.QTok))
    (name : String) (hname : name = "=" ∨ name = "==" ∨ name = "!=") :
    (∀ (f lit : String),
      interpreter.RewriteSelectionCriteria tableEnc relEnc containsRw
        [.opTok name 2, .strLit lit, .pseudonym f none]
        = .ok ("(" ++ (util.PSEUDONYM_PRE ++ f) ++ " " ++ name ++ " "
            ++ ("\"" ++ tableEnc lit ++ "\"") ++ ")"))
    ∧ (∀ (f lit r : String) (enc : String → String),
      interpreter.RewriteSelectionCriteria tableEnc
        (fun tag => if tag = r then some enc else none) containsRw
        [.opTok name 2, .strLit lit, .pseudonym f (some r)]
        = .ok ("(" ++ (util.PSEUDONYM_PRE ++ f) ++ " " ++ name ++ " "
            ++ ("\"" ++ enc lit ++ "\"") ++ ")"))
    ∧ (∀ (f lit r : String),
      interpreter.RewriteSelectionCriteria tableEnc (fun _ => none)
        containsRw [.opTok name 2, .strLit lit, .pseudonym f (some r)]
        = .error "Cannot process token with related attribute in schema without matching related attribute")
    ∧ (∀ (f lit : String),
      interpreter.RewriteSelectionCriteria tableEnc relEnc containsRw
        [.opTok name 2, .pseudonym f none, .strLit lit]
        = .ok ("(" ++ ("\"" ++ tableEnc lit ++ "\"") ++ " " ++ name ++ " "
            ++ (util.PSEUDONYM_PRE ++ f) ++ ")"))
    ∧ (∀ (f : String) (t : util.QTok),
        util.isNondetEncryptedField_spec t = true →
      interpreter.RewriteSelectionCriteria tableEnc relEnc containsRw
        [.opTok name 2, t, .pseudonym f none]
        = .error "Cannot do equality on probabilistic encryption, only pseudonym encryption.")
    ∧ (∀ (lit : String) (t : util.QTok),
        util.isNondetEncryptedField_spec t = true →
      interpreter.RewriteSelectionCriteria tableEnc relEnc containsRw
        [.opTok name 2, .strLit lit, t]
        = .error "Cannot do equality on probabilistic encryption, only pseudonym encryption.") := by
  refine ⟨?_, ?_, ?_, ?_, ?_, ?_⟩
  · intro f lit
    rcases hname with h | h | h <;> subst h <;> rfl
  · intro f lit r enc
    rcases hname with h | h | h <;> subst h <;>
      · simp only [interpreter.RewriteSelectionCriteria,
          interpreter.CheckAndRewriteStack,
          interpreter.RewritePseudonymEncryption, util.QTok.related,
          if_pos rfl]
        rfl
  · intro f lit r
    rcases hname with h | h | h <;> subst h <;> rfl
  · intro f lit
    rcases hname with h | h | h <;> subst h <;> rfl
  · intro f t ht
    rcases hname with h | h | h <;> subst h <;> cases t <;>
      first
      | rfl
      | exact absurd ht (by simp [util.isNondetEncryptedField_spec])
  · intro lit t ht
    rcases hname with h | h | h <;> subst h <;> cases t <;>
      first
      | rfl
      | exact absurd ht (by simp [util.isNondetEncryptedField_spec])

theorem equality_pseudonym_rewrite_witness :
    interpreter.RewriteSelectionCriteria (fun s => "T" ++ s) (fun _ => none)
        (fun a b => .ok (a, b))
        [.opTok "=" 2, .strLit "v", .pseudonym "name" none]
      = .ok ("(" ++ (util.PSEUDONYM_PRE ++ "name") ++ " " ++ "=" ++ " "
          ++ ("\"" ++ (fun s => "T" ++ s) "v" ++ "\"") ++ ")")
    ∧ interpreter.RewriteSelectionCriteria (fun s => "T" ++ s)
        (fun tag => if tag = "rel" then some (fun s => "R" ++ s) else none)
        (fun a b => .ok (a, b))
        [.opTok "=" 2, .strLit "v", .pseudonym "name" (some "rel")]
      = .ok ("(" ++ (util.PSEUDONYM_PRE ++ "name") ++ " " ++ "=" ++ " "
          ++ ("\"" ++ (fun s => "R" ++ s) "v" ++ "\"") ++ ")")
    ∧ interpreter.RewriteSelectionCriteria (fun s => "T" ++ s) (fun _ => none)
        (fun a b => .ok (a, b))
        [.opTok "=" 2, .strLit "v", .probabilistic "name"]
      = .error "Cannot do equality on probabilistic encryption, only pseudonym encryption." :=
  have h := equality_pseudonym_rewrite (fun s => "T" ++ s) (fun _ => none)
    (fun a b => .ok (a, b)) "=" (Or.inl rfl)
  ⟨h.1 "name" "v", h.2.1 "name" "v" "rel" (fun s => "R" ++ s),
    h.2.2.2.2.2 "v" (.probabilistic "name") rfl⟩

/-! ## COUNT(DISTINCT ...) collapsing -/

/-- **C7.** Collapsing `COUNT(DISTINCT e)` (the ebq `DISTINCTCOUNT`
aggregation): if the argument expression contains a probabilistic-,
searchwords-, or homomorphic-encrypted token the rewrite raises the
invalid-query error; otherwise the argument is replaced by the single
aggregation token `COUNT(DISTINCT <infix of e>)`.  Plain `COUNT` never
errors.  The last conjuncts characterize `IsDeterministic` per token kind:
it flags exactly the three non-deterministic encryption types and clears
pseudonym fields, string literals and unprefixed plaintext columns. -/
theorem countDistinct_collapse (e : List util.QTok) (s : String) :
    (util.IsDeterministicExpression e = true →
      qlib.collapseCountDistinct "DISTINCTCOUNT" e s
        = .error "Cannot do distinct count on non-pseudonym encryption.")
    ∧ (util.IsDeterministicExpression e = false →
      qlib.collapseCountDistinct "DISTINCTCOUNT" e s
        = .ok ("COUNT(" ++ ("DISTINCT " ++ s) ++ ")"))
    ∧ qlib.collapseCountDistinct "COUNT" e s = .ok ("COUNT(" ++ s ++ ")")
    ∧ (∀ t ∈ e, util.isNondetEncryptedField_spec t = true →
        util.IsDeterministicExpression e = true)
    ∧ (∀ f : String, util.IsDeterministic (.probabilistic f) = true)
    ∧ (∀ f : String, util.IsDeterministic (.searchwords f) = true)
    ∧ (∀ f : String, util.IsDeterministic (.homomorphicInt f) = true)
    ∧ (∀ f : String, util.IsDeterministic (.homomorphicFloat f) = true)
    ∧ (∀ (f : String) (r : Option String),
        util.IsDeterministic (.pseudonym f r) = false)
    ∧ (∀ lit : String, util.IsDeterministic (.strLit lit) = false) := by
  refine ⟨?_, ?_, rfl, ?_, fun f => rfl, fun f => rfl, fun f => rfl,
    fun f => rfl, fun f r => rfl, fun lit => rfl⟩
  · intro h
    unfold qlib.collapseCountDistinct
    rw [if_pos ⟨rfl, h⟩]
  · intro h
    unfold qlib.collapseCountDistinct
    rw [if_neg (fun hc => by
      rw [h] at hc
      exact absurd hc.2 (by simp))]
    rfl
  · intro t ht hspec
    have hdet : util.IsDeterministic t = true := by
      cases t <;> first
        | rfl
        | exact absurd hspec (by simp [util.isNondetEncryptedField_spec])
    unfold util.IsDeterministicExpression
    exact List.any_eq_true.mpr ⟨t, ht, hdet⟩

theorem countDistinct_collapse_witness :
    qlib.collapseCountDistinct "DISTINCTCOUNT" [.probabilistic "x"] "arg"
      = .error "Cannot do distinct count on non-pseudonym encryption."
    ∧ qlib.collapseCountDistinct "DISTINCTCOUNT" [.pseudonym "x" none] "arg"
      = .ok ("COUNT(" ++ ("DISTINCT " ++ "arg") ++ ")")
    ∧ qlib.collapseCountDistinct "DISTINCTCOUNT" [.fieldTok "col"] "arg"
      = .ok ("COUNT(" ++ ("DISTINCT " ++ "arg") ++ ")")
    ∧ qlib.collapseCountDistinct "COUNT" [.probabilistic "x"] "arg"
      = .ok ("COUNT(" ++ "arg" ++ ")") :=
  ⟨(countDistinct_collapse [.probabilistic "x"] "arg").1 rfl,
    (countDistinct_collapse [.pseudonym "x" none] "arg").2.1 rfl,
    (countDistinct_collapse [.fieldTok "col"] "arg").2.1 (by decide),
    (countDistinct_collapse [.probabilistic "x"] "arg").2.2.1⟩
